import Mathlib

/-!
# Verification of the `wasm-db` UI query engine

A shallow embedding of the Rust sources under `src/wasm-db/src/` (tokenizer,
LRU embedding cache, database/index builder, query executor) together with
proofs and refutations of the specification claims.

Modelling conventions:
* Rust `String`/`&str` values are modelled as `List Char` (`Str`); `s.len()`
  (a byte count in Rust) is `byteLen`, `s.chars()` is the list itself.
* `f64` arithmetic is modelled exactly over `ℚ`; the spec claims treated here
  concern the algebraic structure of the computations, not rounding of the
  binary floating-point format.
* External library behaviour (`unicode-segmentation`, `char::to_lowercase`,
  `char::is_whitespace`) is modelled on its ASCII fragment, which is the
  fragment all claims and witnesses exercise.
* Hash maps (`FxHashMap`, `std::collections::HashMap`) are modelled as
  functions with a default value, or as association lists where the source
  relies on the key set (the concrete bucket layout is never observable
  through the properties proved here, with one exception recorded at the
  claim about candidate-scan order, which is exactly about that layout).
-/

namespace WasmDb

/-- Rust strings, modelled as their sequence of `char`s. -/
abbrev Str := List Char

/-- A Lean string literal as a `Str`. -/
def str (s : String) : Str := s.data

/-- UTF-8 byte length of a `Str`; Rust `str::len`. -/
def byteLen (s : Str) : Nat := (s.map Char.utf8Size).sum

/-- Model of Rust `char` lowercasing (`to_lowercase`), ASCII fragment:
non-ASCII characters are left unchanged. -/
def lowerStr (s : Str) : Str := s.map Char.toLower

/-- Model of Rust `str::trim` (ASCII-whitespace fragment). -/
def trimStr (s : Str) : Str :=
  ((s.dropWhile Char.isWhitespace).reverse.dropWhile Char.isWhitespace).reverse

/-- Model of `tokenizer.rs::normalize`: trim surrounding whitespace, then lowercase. -/
def normalize (s : Str) : Str := lowerStr (trimStr s)

/-- Whether `pat` occurs at the front of `s` (helper for substring search). -/
def leadsWith : Str → Str → Bool
  | [], _ => true
  | _ :: _, [] => false
  | p :: ps, c :: cs => p = c && leadsWith ps cs

/-- Rust `str::contains(&pat)`: substring occurrence. -/
def strContains (s pat : Str) : Bool :=
  match s with
  | [] => pat.isEmpty
  | _ :: cs => leadsWith pat s || strContains cs pat

/-- Word characters for the ASCII fragment of
`unicode_segmentation::unicode_words`. -/
def wordChar (c : Char) : Bool := c.isAlphanum

/-- Accumulating splitter for `uwords`: `cur` holds the current in-progress
word, reversed. -/
def uwordsAux : Str → Str → List Str
  | [], cur => if cur.isEmpty then [] else [cur.reverse]
  | c :: rest, cur =>
      if wordChar c then uwordsAux rest (c :: cur)
      else if cur.isEmpty then uwordsAux rest []
      else cur.reverse :: uwordsAux rest []

/-- ASCII-fragment model of `unicode_words`: maximal runs of alphanumeric
characters. -/
def uwords (s : Str) : List Str := uwordsAux s []

/-- Model of `tokenizer.rs::tokenize`: unicode words, keep those of byte length `> 1`,
lowercase. -/
def tokenize (s : Str) : List Str :=
  ((uwords s).filter (fun w => 1 < byteLen w)).map lowerStr

/-- Model of `f64::max` (no NaN can arise in the exact model). -/
def rustMax (a b : ℚ) : ℚ := if a ≤ b then b else a

/-- Model of `f64::min` (no NaN can arise in the exact model). -/
def rustMin (a b : ℚ) : ℚ := if a ≤ b then a else b

/-- Model of `usize::max`, written so the kernel evaluates it directly. -/
def natMax (a b : Nat) : Nat := if a ≤ b then b else a

/-- Model of `usize::min`, written so the kernel evaluates it directly. -/
def natMin (a b : Nat) : Nat := if a ≤ b then a else b

/-- The recurrence computed by the DP matrix of `tokenizer.rs::levenshtein`
(`matrix[i][j] = min(del+1, ins+1, diag+cost)`), made structurally recursive
through a fuel argument; every recursive call shrinks one of the two lists, so
fuel `|a| + |b|` always suffices and the `0`-fuel branch is unreachable from
`levenshtein` below. -/
def levAux : Nat → Str → Str → Nat
  | _, [], b => b.length
  | _, a :: as, [] => (a :: as).length
  | 0, _ :: _, _ :: _ => 0
  | fuel + 1, a :: as, b :: bs =>
      let cost : Nat := if a = b then 0 else 1
      natMin (levAux fuel as (b :: bs) + 1)
        (natMin (levAux fuel (a :: as) bs + 1) (levAux fuel as bs + cost))

/-- Model of `tokenizer.rs::levenshtein`: classical edit distance over `char`s. -/
def levenshtein (a b : Str) : Nat := levAux (a.length + b.length) a b

/-- Model of `tokenizer.rs::fuzzy_score`, over `ℚ`.  Mirrors the source exactly,
including the early `return 0.0` when the query tokenizes to nothing. -/
def fuzzy_score (query target : Str) : ℚ :=
  let q := normalize query
  let t := normalize target
  if t = q then 1
  else if strContains t q then 9/10
  else
    let q_tokens := tokenize q
    let t_tokens := tokenize t
    if q_tokens.isEmpty then 0
    else
      let overlap := (q_tokens.filter (fun qt =>
        t_tokens.any (fun tt => strContains tt qt || strContains qt tt))).length
      let token_score : ℚ := (overlap : ℚ) / (q_tokens.length : ℚ)
      let t_truncated : Str := t.take (byteLen q + 10)
      let distance := levenshtein q t_truncated
      let max_len := natMax (byteLen q) (byteLen t_truncated)
      let lev_score : ℚ := if 0 < max_len then 1 - (distance : ℚ) / (max_len : ℚ) else 0
      rustMax (token_score * (7/10)) (lev_score * (5/10))

/-- The right-hand side claimed by the spec for the final branch of
`fuzzy_score` (spec §4.1): `max(token_score × 0.7, lev_score × 0.5)`, with
`token_score = 0` when the query tokenizes to nothing and the Levenshtein
sub-score computed regardless.  Kept separate from `fuzzy_score` (which is
translated from the source) so the two can be compared. -/
def fuzzy_claim_rhs (query target : Str) : ℚ :=
  let q := normalize query
  let t := normalize target
  if t = q then 1
  else if strContains t q then 9/10
  else
    let q_tokens := tokenize q
    let t_tokens := tokenize t
    let overlap := (q_tokens.filter (fun qt =>
      t_tokens.any (fun tt => strContains tt qt || strContains qt tt))).length
    let token_score : ℚ :=
      if q_tokens.isEmpty then 0 else (overlap : ℚ) / (q_tokens.length : ℚ)
    let t_truncated : Str := t.take (byteLen q + 10)
    let distance := levenshtein q t_truncated
    let max_len := natMax (byteLen q) (byteLen t_truncated)
    let lev_score : ℚ := if 0 < max_len then 1 - (distance : ℚ) / (max_len : ℚ) else 0
    rustMax (token_score * (7/10)) (lev_score * (5/10))

/-- Model of `tokenizer.rs::match_text`: does any pattern match `text` under the given
match-mode string? -/
def match_text (text : Str) (patterns : List Str) (match_type : String) : Bool :=
  let text_lower := normalize text
  patterns.any (fun pattern =>
    let pattern_lower := normalize pattern
    match match_type with
    | "exact" => text_lower = pattern_lower
    | "contains" => strContains text_lower pattern_lower
    | "fuzzy" => (1/2 : ℚ) < fuzzy_score pattern_lower text_lower
    | "regex" => strContains text_lower pattern_lower
    | _ => strContains text_lower pattern_lower)

/-! ## `cache.rs`: the LRU embedding cache -/

/-- Model of `cache.rs::CacheEntry`. -/
structure CacheEntry where
  embedding : List ℚ
  access_count : Nat
deriving DecidableEq

/-- The entry map `HashMap<String, CacheEntry>` is modelled as an association
list with pairwise-distinct keys (established as an invariant). -/
abbrev EntryMap := List (Str × CacheEntry)

/-- Model of `HashMap::contains_key`. -/
def containsKey (l : EntryMap) (k : Str) : Bool := l.any (fun p => p.1 = k)

/-- Model of `HashMap::get`. -/
def lookupKey (l : EntryMap) (k : Str) : Option CacheEntry :=
  (l.find? (fun p => p.1 = k)).map (·.2)

/-- Model of `HashMap::remove` (removes the unique binding of `k`, if any). -/
def removeKey (l : EntryMap) (k : Str) : EntryMap := l.filter (fun p => ¬ p.1 = k)

/-- The `get_mut` update overwriting the stored vector (`put` on an existing
key). -/
def setEmbedding (l : EntryMap) (k : Str) (emb : List ℚ) : EntryMap :=
  l.map (fun p => if p.1 = k then (p.1, { p.2 with embedding := emb }) else p)

/-- The `get_mut` update incrementing `access_count` (`get` on a present
key). -/
def bumpCount (l : EntryMap) (k : Str) : EntryMap :=
  l.map (fun p => if p.1 = k then (p.1, { p.2 with access_count := p.2.access_count + 1 }) else p)

/-- Model of `cache.rs::EmbeddingCache`: entry map, recency sequence (front = oldest),
capacity. -/
structure EmbeddingCache where
  entries : EntryMap
  access_order : List Str
  capacity : Nat

/-- Model of `EmbeddingCache::new`. -/
def EmbeddingCache.mk0 (capacity : Nat) : EmbeddingCache :=
  { entries := [], access_order := [], capacity := capacity }

/-- Model of `EmbeddingCache::get`: on a hit, move the key to the back of the recency
sequence (`retain` + `push_back`), bump its access count and return the
vector; on a miss return `none` without mutating. -/
def EmbeddingCache.get (c : EmbeddingCache) (fp : Str) :
    Option (List ℚ) × EmbeddingCache :=
  if containsKey c.entries fp then
    ((lookupKey c.entries fp).map (·.embedding),
     { c with
        access_order := (c.access_order.filter (fun k => ¬ k = fp)) ++ [fp],
        entries := bumpCount c.entries fp })
  else (none, c)

/-- Model of `EmbeddingCache::peek`: lookup without any mutation. -/
def EmbeddingCache.peek (c : EmbeddingCache) (fp : Str) : Option (List ℚ) :=
  (lookupKey c.entries fp).map (·.embedding)

/-- The `while entries.len() >= capacity` eviction loop of `put`, popping the
front of the recency sequence and removing that key.  In the source the loop
would spin forever if the sequence emptied while the map stayed over capacity;
that state is unreachable (the key-set/recency-sequence agreement invariant is
proved below), and the model simply stops there. -/
def evictLoop (cap : Nat) : List Str → EntryMap → List Str × EntryMap
  | [], entries => ([], entries)
  | o :: rest, entries =>
      if entries.length < cap then (o :: rest, entries)
      else evictLoop cap rest (removeKey entries o)

/-- Model of `EmbeddingCache::put`: overwrite-and-refresh on an existing key, else
evict to below capacity and insert at the back with `access_count = 1`. -/
def EmbeddingCache.put (c : EmbeddingCache) (fp : Str) (emb : List ℚ) :
    EmbeddingCache :=
  if containsKey c.entries fp then
    { c with
        entries := setEmbedding c.entries fp emb,
        access_order := (c.access_order.filter (fun k => ¬ k = fp)) ++ [fp] }
  else
    let (order, entries) := evictLoop c.capacity c.access_order c.entries
    { c with
        entries := entries ++ [(fp, ⟨emb, 1⟩)],
        access_order := order ++ [fp] }

/-- Model of `EmbeddingCache::get_missing`. -/
def EmbeddingCache.get_missing (c : EmbeddingCache) (fps : List Str) : List Str :=
  fps.filter (fun fp => ¬ containsKey c.entries fp)

/-- Model of `EmbeddingCache::get_cached`. -/
def EmbeddingCache.get_cached (c : EmbeddingCache) (fps : List Str) :
    List (Str × List ℚ) :=
  fps.filterMap (fun fp => (lookupKey c.entries fp).map (fun e => (fp, e.embedding)))

/-- Model of `EmbeddingCache::size`. -/
def EmbeddingCache.size (c : EmbeddingCache) : Nat := c.entries.length

/-- Model of `EmbeddingCache::clear`. -/
def EmbeddingCache.clear (c : EmbeddingCache) : EmbeddingCache :=
  { c with entries := [], access_order := [] }

/-- One host-visible cache operation (claim about get/put/peek/clear
sequences). -/
inductive CacheOp where
  | get (fp : Str)
  | put (fp : Str) (emb : List ℚ)
  | peek (fp : Str)
  | clear

/-- Effect of one operation on the cache state (`peek` borrows immutably and
leaves the state unchanged). -/
def applyOp (c : EmbeddingCache) : CacheOp → EmbeddingCache
  | .get fp => (c.get fp).2
  | .put fp emb => c.put fp emb
  | .peek _ => c
  | .clear => c.clear

/-- Replay a sequence of operations from a fresh cache. -/
def runOps (cap : Nat) (ops : List CacheOp) : EmbeddingCache :=
  ops.foldl applyOp (EmbeddingCache.mk0 cap)

/-- Record of last-access times: an access is a `put` of a key or a `get`
that hits it (spec §3 invariant 5: "least-recently-accessed (by `get` or
`put`)").  `i` is the index of the operation in the sequence. -/
def accessUpd (c : EmbeddingCache) (tm : Str → Option Nat) (i : Nat) :
    CacheOp → (Str → Option Nat)
  | .get fp =>
      if containsKey c.entries fp then (fun k => if k = fp then some i else tm k) else tm
  | .put fp _ => fun k => if k = fp then some i else tm k
  | .peek _ => tm
  | .clear => tm

/-- Replay operations while recording last-access times. -/
def traceStep (s : EmbeddingCache × (Str → Option Nat) × Nat) (op : CacheOp) :
    EmbeddingCache × (Str → Option Nat) × Nat :=
  (applyOp s.1 op, accessUpd s.1 s.2.1 s.2.2 op, s.2.2 + 1)

/-- State and access-time record after replaying `ops` from a fresh cache. -/
def runTrace (cap : Nat) (ops : List CacheOp) :
    EmbeddingCache × (Str → Option Nat) × Nat :=
  ops.foldl traceStep (EmbeddingCache.mk0 cap, fun _ => none, 0)

/-- Time of the last access (`put`, or `get` hit) of `k` during `ops`. -/
def lastAccess (cap : Nat) (ops : List CacheOp) (k : Str) : Option Nat :=
  (runTrace cap ops).2.1 k

/-! ## `types.rs`: the data model -/

/-- Model of `types.rs::ElementRole`. -/
inductive ElementRole where
  | Button | Link | Textbox | Checkbox | Radio | Combobox | Listbox | Option
  | Menu | Menuitem | Tab | Tabpanel | Dialog | Alertdialog | Switch | Slider
  | Spinbutton | Searchbox | Heading | Image | Navigation | Main | Region
  | Form | Grid | Gridcell | Row | Rowgroup | Cell | Columnheader | Rowheader
  | Tree | Treeitem | Tooltip | Status | Alert | Progressbar | Separator
  | Group | Article | Generic
deriving DecidableEq

/-- Model of `format!("{:?}", role).to_lowercase()`: the lowercased `Debug` name of a
role, as used in the `role=` filter description. -/
def roleName : ElementRole → String
  | .Button => "button" | .Link => "link" | .Textbox => "textbox"
  | .Checkbox => "checkbox" | .Radio => "radio" | .Combobox => "combobox"
  | .Listbox => "listbox" | .Option => "option" | .Menu => "menu"
  | .Menuitem => "menuitem" | .Tab => "tab" | .Tabpanel => "tabpanel"
  | .Dialog => "dialog" | .Alertdialog => "alertdialog" | .Switch => "switch"
  | .Slider => "slider" | .Spinbutton => "spinbutton" | .Searchbox => "searchbox"
  | .Heading => "heading" | .Image => "image" | .Navigation => "navigation"
  | .Main => "main" | .Region => "region" | .Form => "form" | .Grid => "grid"
  | .Gridcell => "gridcell" | .Row => "row" | .Rowgroup => "rowgroup"
  | .Cell => "cell" | .Columnheader => "columnheader" | .Rowheader => "rowheader"
  | .Tree => "tree" | .Treeitem => "treeitem" | .Tooltip => "tooltip"
  | .Status => "status" | .Alert => "alert" | .Progressbar => "progressbar"
  | .Separator => "separator" | .Group => "group" | .Article => "article"
  | .Generic => "generic"

/-- Model of `types.rs::state_flags`. -/
def VISIBLE : Nat := 1
def ENABLED : Nat := 2
def CHECKED : Nat := 4
def EXPANDED : Nat := 8
def FOCUSED : Nat := 16
def SELECTED : Nat := 32
def PRESSED : Nat := 64
def READONLY : Nat := 128
def REQUIRED : Nat := 256
def INVALID : Nat := 512
def BUSY : Nat := 1024
def HIDDEN : Nat := 2048
def DISABLED : Nat := 4096

/-- Bit test `(bits & flag) != 0`. -/
def hasFlag (bits flag : Nat) : Bool := decide (bits &&& flag ≠ 0)

/-- Model of `types.rs::Rect` (integer pixel coordinates). -/
structure Rect where
  x : Int
  y : Int
  width : Int
  height : Int
deriving DecidableEq

/-- Model of `types.rs::NodeRecord`.  `attrs` (a `HashMap<String, String>`) is an
association list with the first binding of a key authoritative. -/
structure NodeRecord where
  id : Nat
  frame_id : Nat
  role : ElementRole
  name : Str
  state_bits : Nat
  attrs : List (Str × Str)
  context : List Str
  rect : Rect
  fingerprint : Str
  tag_name : Str
deriving DecidableEq

/-- Model of `attrs.get(k)`. -/
def attrsGet (attrs : List (Str × Str)) (k : Str) : Option Str :=
  (attrs.find? (fun p => p.1 = k)).map (·.2)

/-- Model of `types.rs::MatchType`. -/
inductive MatchType where
  | Exact | Contains | Fuzzy | Regex
deriving DecidableEq

/-- The match-mode string the executor hands to `match_text`. -/
def matchTypeStr : MatchType → String
  | .Exact => "exact"
  | .Contains => "contains"
  | .Fuzzy => "fuzzy"
  | .Regex => "regex"

/-- Model of `types.rs::RoleValue`. -/
inductive RoleValue where
  | Single (r : ElementRole)
  | Multiple (rs : List ElementRole)
deriving DecidableEq

/-- Model of `types.rs::StateFilter`. -/
structure StateFilter where
  visible : Option Bool := none
  enabled : Option Bool := none
  checked : Option Bool := none
  expanded : Option Bool := none
  focused : Option Bool := none
  selected : Option Bool := none
deriving DecidableEq

/-- Model of `types.rs::TextFilter`. -/
structure TextFilter where
  match_type : MatchType
  value : Str
deriving DecidableEq

/-- Model of `types.rs::AttrFilter`. -/
structure AttrFilter where
  name : Str
  value : Str
  match_type : Option MatchType := none
deriving DecidableEq

/-- Model of `types.rs::NearFilter`; a missing `radius` is filled with
`default_radius` at deserialization time (serde default). -/
structure NearFilter where
  target_id : Option Nat := none
  text : Option Str := none
  radius : ℚ := 200
deriving DecidableEq

/-- Model of `types.rs::default_radius`. -/
def default_radius : ℚ := 200

/-- Model of `types.rs::WhereClause`. -/
inductive WhereClause where
  | role (role : RoleValue)
  | state (state : StateFilter)
  | name (name : TextFilter)
  | context (in_context : TextFilter)
  | attr (attr : AttrFilter)
  | near (near : NearFilter)
  | nth (nth : Nat)
deriving DecidableEq

/-- Model of `types.rs::OrderBy`. -/
structure OrderBy where
  field : Option String := none
  direction : Option String := none
deriving DecidableEq

/-- Model of `types.rs::QueryAST` (`wh` stands for the raw-identifier field
`r#where`). -/
structure QueryAST where
  select : Option Str := none
  wh : List WhereClause
  order_by : Option (List OrderBy) := none
  limit : Option Nat := none
  offset : Option Nat := none
deriving DecidableEq

/-- Model of `types.rs::Actionability`. -/
structure Actionability where
  click : Bool
  type : Bool
  check : Bool
  select : Bool
  scroll : Bool
deriving DecidableEq

/-- Model of `types.rs::MatchStates`. -/
structure MatchStates where
  visible : Bool
  enabled : Bool
  checked : Option Bool
  expanded : Option Bool
  focused : Option Bool
  selected : Option Bool
deriving DecidableEq

/-- Model of `types.rs::MatchResult` (score over `ℚ`, see header). -/
structure MatchResult where
  id : Nat
  score : ℚ
  role : ElementRole
  name : Str
  states : MatchStates
  context : List Str
  actionability : Actionability
  rect : Rect
deriving DecidableEq

/-- Model of `types.rs::QueryExplain`.  `execution_time_ms` comes from the host
performance clock, an external effect; the model pins it to `0`. -/
structure QueryExplain where
  candidates_considered : Nat
  filters_applied : List String
  execution_time_ms : ℚ
deriving DecidableEq

/-- Model of `types.rs::QueryResult`. -/
structure QueryResult where
  «matches» : List MatchResult
  total : Nat
  explain : QueryExplain
deriving DecidableEq

/-! ## `db.rs`: database and index builder -/

/-- The synonym groups of `db.rs::init_synonyms`. -/
def synonym_groups : List (List Str) :=
  [[str "login", str "sign in", str "anmelden", str "einloggen", str "log in"],
   [str "logout", str "sign out", str "abmelden", str "log out"],
   [str "submit", str "send", str "absenden", str "senden", str "ok", str "confirm"],
   [str "cancel", str "abbrechen", str "close", str "schließen"],
   [str "save", str "speichern", str "apply"],
   [str "delete", str "remove", str "löschen", str "entfernen"],
   [str "edit", str "bearbeiten", str "modify", str "ändern"],
   [str "search", str "suchen", str "find", str "finden"],
   [str "next", str "weiter", str "continue", str "fortfahren"],
   [str "back", str "zurück", str "previous"],
   [str "home", str "startseite", str "main"],
   [str "settings", str "einstellungen", str "preferences", str "options"],
   [str "help", str "hilfe", str "support"],
   [str "profile", str "profil", str "account", str "konto"],
   [str "password", str "passwort", str "kennwort"],
   [str "email", str "e-mail", str "mail"],
   [str "username", str "benutzername", str "user"]]

/-- Model of `db.rs::init_synonyms`: the double loop inserting
`word ↦ group \ {word}` for every word of every group.  The map is modelled
as a function with `[]` for absent keys (extending patterns by `[]` is a
no-op, so this is observationally the Rust `Option`). -/
def init_synonyms : Str → List Str :=
  synonym_groups.foldl
    (fun m g => g.foldl
      (fun m w => fun x => if x = w then g.filter (fun y => ¬ y = w) else m x) m)
    (fun _ => [])

/-- Model of `db.rs::UiDatabase`: records plus the three indices and the synonym map.
The `FxHashMap` indices are modelled as functions with the Rust
`entry(..).or_default()` default. -/
structure UiDatabase where
  records : List NodeRecord
  role_index : ElementRole → List Nat
  token_index : Str → List Nat
  testid_index : Str → Option Nat
  synonyms : Str → List Str

/-- Model of `UiDatabase::new`. -/
def UiDatabase.new : UiDatabase :=
  { records := [], role_index := (fun _ => []), token_index := (fun _ => []),
    testid_index := (fun _ => none), synonyms := init_synonyms }

/-- Model of `UiDatabase::reset`: empties the records and the three indices, keeps the
synonym map. -/
def UiDatabase.reset (db : UiDatabase) : UiDatabase :=
  { db with
    records := [],
    role_index := (fun _ => []),
    token_index := (fun _ => []),
    testid_index := (fun _ => none) }

/-- The token list of one record: `tokenize(name)` then the tokens of each
context string, in order. -/
def recordTokens (r : NodeRecord) : List Str :=
  tokenize r.name ++ (r.context.map tokenize).flatten

/-- Model of `token_index.entry(token).or_default(); if !list.contains(&idx)
{ list.push(idx) }`. -/
def addToken (idx : Nat) (ti : Str → List Nat) (t : Str) : Str → List Nat :=
  fun u =>
    if u = t then (if (ti t).contains idx then ti t else ti t ++ [idx])
    else ti u

/-- The body of the `ingest` loop for the record at position `idx`: append to
the role index, add every token, and (last-writer-wins) bind the
`data-testid` value. -/
def ingestStep (st : UiDatabase) (idx : Nat) (r : NodeRecord) : UiDatabase :=
  let st :=
    { st with role_index := fun ρ =>
        if ρ = r.role then st.role_index ρ ++ [idx] else st.role_index ρ }
  let st :=
    { st with token_index := (recordTokens r).foldl (addToken idx) st.token_index }
  match attrsGet r.attrs (str "data-testid") with
  | some v =>
      { st with testid_index := fun u =>
          if u = v then some idx else st.testid_index u }
  | none => st

/-- The `for (idx, record) in records.iter().enumerate()` loop, from start
position `i`. -/
def buildFrom (i : Nat) : List NodeRecord → UiDatabase → UiDatabase
  | [], st => st
  | r :: rest, st => buildFrom (i + 1) rest (ingestStep st i r)

/-- Model of `UiDatabase::ingest`: reset (records and indices), install the new
records, then build the indices over them in insertion order. -/
def UiDatabase.ingest (db : UiDatabase) (rs : List NodeRecord) : UiDatabase :=
  buildFrom 0 rs { db.reset with records := rs }

/-- Model of `UiDatabase::size`. -/
def UiDatabase.size (db : UiDatabase) : Nat := db.records.length

/-- Model of `UiDatabase::get_record`: linear scan by id. -/
def UiDatabase.get_record (db : UiDatabase) (id : Nat) : Option NodeRecord :=
  db.records.find? (fun r => r.id = id)

/-! ## `query.rs`: the query executor

The candidate set (`FxHashSet<usize>` in the source) is modelled as a
`Nat → Bool` predicate.  Where the source drains the set
(`candidates.into_iter()`), the model enumerates positions in increasing
order; the Rust iteration order is an artefact of the hash-table layout and
is deliberately not part of the model (see the development notes on the
candidate-scan-order claim). -/

/-- Rust `f64::round`: round half away from zero. -/
def rustRound (q : ℚ) : ℤ := if 0 ≤ q then ⌊q + 1/2⌋ else -⌊-q + 1/2⌋

/-- Model of `(score * 100.0).round() / 100.0`. -/
def round2 (q : ℚ) : ℚ := (rustRound (q * 100) : ℚ) / 100

/-- Tail of `Vec::dedup`: drop elements equal to the previous kept one. -/
def dedupRunGo (prev : String) : List String → List String
  | [] => []
  | b :: rest => if b = prev then dedupRunGo prev rest else b :: dedupRunGo b rest

/-- Model of `Vec::dedup`: remove consecutive repeated elements, keeping the first of
each run. -/
def dedupRun : List String → List String
  | [] => []
  | a :: rest => a :: dedupRunGo a rest

/-- Rust `value.split('|')` (empty segments kept). -/
def splitPipe (s : Str) : List Str := s.splitOn '|'

/-- Model of `record.context.join(" ")`. -/
def joinSpace (l : List Str) : Str := (l.intersperse (str " ")).flatten

/-- The rectangle center `(x + width/2, y + height/2)` as exact rationals. -/
def center (r : NodeRecord) : ℚ × ℚ :=
  ((r.rect.x : ℚ) + (r.rect.width : ℚ) / 2, (r.rect.y : ℚ) + (r.rect.height : ℚ) / 2)

/-- The near-filter test `sqrt((cx-tx)² + (cy-ty)²) <= radius`, restated
exactly over `ℚ` (for a nonnegative radius the square root comparison is
equivalent to comparing squares; for a negative radius both are false). -/
def withinRadius (c t : ℚ × ℚ) (radius : ℚ) : Bool :=
  decide (0 ≤ radius ∧ (c.1 - t.1) ^ 2 + (c.2 - t.2) ^ 2 ≤ radius ^ 2)

/-- Model of `{:?}` rendering of the `Option<u32>` in the near-filter description. -/
def optRepr : Option Nat → String
  | some n => "Some(" ++ toString n ++ ")"
  | none => "None"

/-- Stand-in for the `Display` rendering of the `f64` radius in the
near-filter description (a pure function of the clause). -/
def ratDisplay (q : ℚ) : String := toString q

/-- The list of roles named by a role clause. -/
def rolesOf : RoleValue → List ElementRole
  | .Single r => [r]
  | .Multiple rs => rs

/-- One requested flag of a state clause: pass iff the bit-extracted value
equals the requested boolean; an absent request is unconstrained. -/
def flagOk (req : Option Bool) (bits flag : Nat) : Bool :=
  match req with
  | some b => hasFlag bits flag == b
  | none => true

/-- Does a record pass a state clause (all six requested flags)? -/
def stateMatches (st : StateFilter) (r : NodeRecord) : Bool :=
  flagOk st.visible r.state_bits VISIBLE &&
  flagOk st.enabled r.state_bits ENABLED &&
  flagOk st.checked r.state_bits CHECKED &&
  flagOk st.expanded r.state_bits EXPANDED &&
  flagOk st.focused r.state_bits FOCUSED &&
  flagOk st.selected r.state_bits SELECTED

/-- The `state_names` vector of the state branch of `apply_filter`: pushed
once per record (only for the `visible` and `enabled` requests), then
`dedup()` (consecutive duplicates only). -/
def stateNames (st : StateFilter) (records : List NodeRecord) : List String :=
  dedupRun ((records.map (fun _ =>
    (match st.visible with
     | some b => ["visible=" ++ toString b]
     | none => []) ++
    (match st.enabled with
     | some b => ["enabled=" ++ toString b]
     | none => []))).flatten)

/-- The target-center resolution of the near filter: a given `target_id` is
authoritative (`if let ... else if let ...` in the source, so a present but
unresolvable `target_id` yields no target even when `text` would match);
otherwise the first record whose lowercased name contains the lowercased
`text`. -/
def nearTargetCenter (db : UiDatabase) (nf : NearFilter) : Option (ℚ × ℚ) :=
  match nf.target_id with
  | some tid => (db.records.find? (fun r => r.id = tid)).map center
  | none =>
      match nf.text with
      | some tx =>
          (db.records.find? (fun r =>
            strContains (lowerStr r.name) (lowerStr tx))).map center
      | none => none

/-- Model of `QueryExecutor::apply_filter`: the description pushed onto
`filters_applied` and the set of passing positions, per clause.  Every source
branch ends in `Ok(result)`, so the `Result` wrapper is carried by `execute`
only nominally and the model is total. -/
def applyFilter (db : UiDatabase) : WhereClause → String × (Nat → Bool)
  | .role rv =>
      let roles := rolesOf rv
      ("role=" ++ String.intercalate "|" (roles.map roleName),
       fun i => roles.any (fun ρ => (db.role_index ρ).contains i))
  | .state st =>
      ("state(" ++ String.intercalate "," (stateNames st db.records) ++ ")",
       fun i =>
         match db.records.get? i with
         | some r => stateMatches st r
         | none => false)
  | .name nf =>
      let mt := matchTypeStr nf.match_type
      let patterns0 := (splitPipe nf.value).map (fun s => lowerStr (trimStr s))
      let patterns := patterns0 ++ (patterns0.map db.synonyms).flatten
      ("name(" ++ mt ++ ":" ++ String.mk nf.value ++ ")",
       fun i =>
         match db.records.get? i with
         | some r => match_text r.name patterns mt
         | none => false)
  | .context cf =>
      let mt := matchTypeStr cf.match_type
      let patterns := (splitPipe cf.value).map (fun s => lowerStr (trimStr s))
      ("context(" ++ mt ++ ":" ++ String.mk cf.value ++ ")",
       fun i =>
         match db.records.get? i with
         | some r => match_text (joinSpace r.context) patterns mt
         | none => false)
  | .attr af =>
      let mt := matchTypeStr (af.match_type.getD .Exact)
      ("attr(" ++ String.mk af.name ++ "=" ++ String.mk af.value ++ ")",
       fun i =>
         match db.records.get? i with
         | some r =>
             match attrsGet r.attrs af.name with
             | some v => match_text v [af.value] mt
             | none => false
         | none => false)
  | .near nf =>
      let target := nearTargetCenter db nf
      ("near(" ++ optRepr (nf.target_id.or (nf.text.map (fun _ => 0))) ++
         ", r=" ++ ratDisplay nf.radius ++ ")",
       fun i =>
         match target with
         | some tc =>
             match db.records.get? i with
             | some r => withinRadius (center r) tc nf.radius
             | none => false
         | none => false)
  | .nth _ => ("nth", fun i => decide (i < db.records.length))

/-- Model of `QueryExecutor::score_candidate`: base 0.5, per-clause bonuses in clause
order, testid and upper-viewport bonuses, capped at 1.0 last (the source
receives the candidate position and reads `self.db.records()[idx]`; the model
receives that record). -/
def scoreCandidate (q : QueryAST) (r : NodeRecord) : ℚ :=
  let score := q.wh.foldl
    (fun score clause =>
      match clause with
      | .name nf => score + fuzzy_score nf.value r.name * (3/10)
      | .context cf => score + fuzzy_score cf.value (joinSpace r.context) * (2/10)
      | .role rv =>
          if (rolesOf rv).any (fun ρ => ρ = r.role) then score + 1/10 else score
      | .state _ => score + 5/100
      | _ => score)
    (1/2)
  let score := if (attrsGet r.attrs (str "data-testid")).isSome then score + 1/10 else score
  let score := if r.rect.y < 300 then score + 5/100 else score
  rustMin score 1

/-- Fallback record for out-of-range positions; every position the executor
produces is in range (`enumerate` indices), so this value is never
observable. -/
def dummyRecord : NodeRecord :=
  { id := 0, frame_id := 0, role := .Generic, name := [], state_bits := 0,
    attrs := [], context := [], rect := ⟨0, 0, 0, 0⟩, fingerprint := [],
    tag_name := [] }

/-- Position lookup within the executor (always in range in the source). -/
def getRec (db : UiDatabase) (i : Nat) : NodeRecord :=
  (db.records.get? i).getD dummyRecord

/-- The roles for which `click` actionability is derived. -/
def clickableRoles : List ElementRole :=
  [.Button, .Link, .Tab, .Menuitem, .Option, .Checkbox, .Radio, .Switch]

/-- The roles for which `type` actionability is derived. -/
def typeableRoles : List ElementRole :=
  [.Textbox, .Searchbox, .Combobox, .Spinbutton]

/-- The roles for which `check` actionability is derived. -/
def checkableRoles : List ElementRole := [.Checkbox, .Radio, .Switch]

/-- The roles for which `select` actionability is derived. -/
def selectableRoles : List ElementRole := [.Option, .Tab, .Treeitem, .Gridcell]

/-- Model of `QueryExecutor::record_to_match`. -/
def recordToMatch (r : NodeRecord) (score : ℚ) : MatchResult :=
  let is_visible := hasFlag r.state_bits VISIBLE
  let is_enabled := hasFlag r.state_bits ENABLED
  let actionable := is_visible && is_enabled
  { id := r.id,
    score := round2 score,
    role := r.role,
    name := r.name,
    states :=
      { visible := is_visible,
        enabled := is_enabled,
        checked := if hasFlag r.state_bits CHECKED then some true else none,
        expanded := if hasFlag r.state_bits EXPANDED then some true else none,
        focused := if hasFlag r.state_bits FOCUSED then some true else none,
        selected := if hasFlag r.state_bits SELECTED then some true else none },
    context := r.context,
    actionability :=
      { click := actionable && clickableRoles.any (fun ρ => ρ = r.role),
        type := actionable && typeableRoles.any (fun ρ => ρ = r.role),
        check := actionable && checkableRoles.any (fun ρ => ρ = r.role),
        select := actionable && selectableRoles.any (fun ρ => ρ = r.role),
        scroll := is_visible },
    rect := r.rect }

/-- Insert `x` into a sorted list, after every element `y` with `le y x`
(so ties keep their existing order). -/
def insertSorted {α : Type} (le : α → α → Bool) (x : α) : List α → List α
  | [] => [x]
  | y :: ys => if le y x then y :: insertSorted le x ys else x :: y :: ys

/-- Stable sort by a total boolean comparator: elements are inserted in list
order, each after its ties.  This is the observable contract of Rust
`sort_by` (a stable sort): same multiset, sorted by the comparator, ties in
input order. -/
def stableSort {α : Type} (le : α → α → Bool) (l : List α) : List α :=
  l.foldl (fun acc x => insertSorted le x acc) []

/-- The ordering phase of `execute`: stable sort of the scored list by the
requested field and direction (`sort_by` is a stable sort; scores are exact
rationals, so the `partial_cmp ... unwrap_or(Equal)` NaN escape never
fires). -/
def sortPhase (db : UiDatabase) (q : QueryAST) (scored : List (Nat × ℚ)) :
    List (Nat × ℚ) :=
  match q.order_by with
  | none => stableSort (fun a b => decide (b.2 ≤ a.2)) scored
  | some obs =>
      match obs with
      | [] => scored
      | ob :: _ =>
          let field := ob.field.getD "score"
          let desc : Bool := decide (¬ ob.direction = some "asc")
          match field with
          | "score" =>
              if desc then stableSort (fun a b => decide (b.2 ≤ a.2)) scored
              else stableSort (fun a b => decide (a.2 ≤ b.2)) scored
          | "y" =>
              if desc then
                stableSort (fun a b =>
                  decide ((getRec db b.1).rect.y ≤ (getRec db a.1).rect.y)) scored
              else
                stableSort (fun a b =>
                  decide ((getRec db a.1).rect.y ≤ (getRec db b.1).rect.y)) scored
          | "x" =>
              if desc then
                stableSort (fun a b =>
                  decide ((getRec db b.1).rect.x ≤ (getRec db a.1).rect.x)) scored
              else
                stableSort (fun a b =>
                  decide ((getRec db a.1).rect.x ≤ (getRec db b.1).rect.x)) scored
          | _ => stableSort (fun a b => decide (b.2 ≤ a.2)) scored

/-- The candidate predicate after the filter phase: the first clause replaces
the all-positions seed, later clauses intersect. -/
def candidatesOf (db : UiDatabase) (q : QueryAST) : Nat → Bool :=
  match (q.wh.map (applyFilter db)).map (·.2) with
  | [] => fun i => decide (i < db.records.length)
  | s :: rest => rest.foldl (fun a b => fun i => a i && b i) s

/-- The scored candidate list entering the ordering phase (position order;
see the note at the head of this section). -/
def scoredOf (db : UiDatabase) (q : QueryAST) : List (Nat × ℚ) :=
  ((List.range db.records.length).filter (candidatesOf db q)).map
    (fun i => (i, scoreCandidate q (getRec db i)))

/-- The fully ordered candidate list (before pagination). -/
def rankedOf (db : UiDatabase) (q : QueryAST) : List (Nat × ℚ) :=
  sortPhase db q (scoredOf db q)

/-- Model of `QueryExecutor::execute`: filter, score, order, paginate, materialize.
Every source path returns `Ok`, so the result is wrapped in `Except.ok`. -/
def execute (db : UiDatabase) (q : QueryAST) : Except String QueryResult :=
  let filters_applied := (q.wh.map (applyFilter db)).map (·.1)
  let sorted := rankedOf db q
  let total := sorted.length
  let offset := q.offset.getD 0
  let limit := q.limit.getD 10
  let paginated := (sorted.drop offset).take limit
  .ok
    { «matches» := paginated.map (fun p => recordToMatch (getRec db p.1) p.2),
      total := total,
      explain :=
        { candidates_considered := total,
          filters_applied := filters_applied,
          execution_time_ms := 0 } }

/-! ## `lib.rs`: the host boundary -/

/-- Model of `lib.rs::WasmUiDb`. -/
structure WasmUiDb where
  db : UiDatabase
  embedding_cache : EmbeddingCache

/-- Model of `WasmUiDb::new`. -/
def WasmUiDb.new : WasmUiDb :=
  { db := UiDatabase.new, embedding_cache := EmbeddingCache.mk0 10000 }

/-- Model of `WasmUiDb::ingest`: deserialize, then replace the corpus.  The serde
deserialization happens at the host boundary; the model receives its result
(`parsed`).  On a parse error the function returns before touching
`self.db`. -/
def WasmUiDb.ingest (s : WasmUiDb) (parsed : Except String (List NodeRecord)) :
    Except String Unit × WasmUiDb :=
  match parsed with
  | .error e => (.error ("Failed to parse records: " ++ e), s)
  | .ok rs => (.ok (), { s with db := s.db.ingest rs })

/-! ## Concrete corpora used by witnesses and counterexamples -/

/-- A visible, enabled Submit button (seed scenario 1). -/
def recA : NodeRecord :=
  { id := 1, frame_id := 0, role := .Button, name := str "Submit",
    state_bits := 3, attrs := [], context := [], rect := ⟨0, 0, 50, 20⟩,
    fingerprint := str "fA", tag_name := str "button" }

/-- A visible, enabled Home link lower on the page (seed scenario 1). -/
def recB : NodeRecord :=
  { id := 2, frame_id := 0, role := .Link, name := str "Home",
    state_bits := 3, attrs := [], context := [], rect := ⟨0, 400, 40, 20⟩,
    fingerprint := str "fB", tag_name := str "a" }

/-- Model of `recA` with a `data-testid` attribute. -/
def dupA : NodeRecord := { recA with attrs := [(str "data-testid", str "x")] }

/-- Model of `recB` with the same `data-testid` value as `dupA`. -/
def dupB : NodeRecord := { recB with attrs := [(str "data-testid", str "x")] }

/-- The two-record corpus. -/
def dbAB : UiDatabase := UiDatabase.new.ingest [recA, recB]

/-- The empty corpus. -/
def dbEmpty : UiDatabase := UiDatabase.new.ingest []

/-- A single-clause role query. -/
def qRole : QueryAST := { wh := [.role (.Single .Button)] }

/-- A single-clause state query requesting `visible = true`. -/
def qState : QueryAST := { wh := [.state { visible := some true }] }

/-- A near clause with a stale `target_id` and a `text` that matches
`recB`. -/
def nfBad : NearFilter :=
  { target_id := some 99, text := some (str "home"), radius := 200 }

/-! ## Claim C1: index fidelity after ingest -/

/-- Model of `ingestStep` never touches the record vector. -/
theorem ingestStep_records (st : UiDatabase) (i : Nat) (r : NodeRecord) :
    (ingestStep st i r).records = st.records := by
  cases h : attrsGet r.attrs (str "data-testid") <;> simp [ingestStep, h]

/-- The role index after one `ingestStep`. -/
theorem ingestStep_role_index (st : UiDatabase) (i : Nat) (r : NodeRecord)
    (ρ : ElementRole) :
    (ingestStep st i r).role_index ρ =
      if ρ = r.role then st.role_index ρ ++ [i] else st.role_index ρ := by
  cases h : attrsGet r.attrs (str "data-testid") <;> simp [ingestStep, h]

/-- The token index after one `ingestStep`. -/
theorem ingestStep_token_index (st : UiDatabase) (i : Nat) (r : NodeRecord) :
    (ingestStep st i r).token_index =
      (recordTokens r).foldl (addToken i) st.token_index := by
  cases h : attrsGet r.attrs (str "data-testid") <;> simp [ingestStep, h]

/-- The testid index after one `ingestStep`. -/
theorem ingestStep_testid_index (st : UiDatabase) (i : Nat) (r : NodeRecord) :
    (ingestStep st i r).testid_index =
      match attrsGet r.attrs (str "data-testid") with
      | some v => fun u => if u = v then some i else st.testid_index u
      | none => st.testid_index := by
  cases h : attrsGet r.attrs (str "data-testid") <;> simp [ingestStep, h]

/-- Model of `addToken` preserves membership at every key. -/
theorem addToken_mem_mono {x i : Nat} {ti : Str → List Nat} {t u : Str}
    (hx : x ∈ ti u) : x ∈ addToken i ti t u := by
  unfold addToken
  split_ifs with h1 h2
  · exact h1 ▸ hx
  · exact List.mem_append_left _ (h1 ▸ hx)
  · exact hx

/-- Model of `addToken i _ t` makes `i` a member at key `t`. -/
theorem addToken_self_mem (i : Nat) (ti : Str → List Nat) (t : Str) :
    i ∈ addToken i ti t t := by
  unfold addToken
  simp only [if_pos rfl]
  by_cases h : (ti t).contains i = true
  · rw [if_pos h]
    exact List.elem_iff.mp h
  · rw [if_neg h]
    exact List.mem_append_right _ (List.mem_singleton_self i)

/-- Folding `addToken` preserves membership at every key. -/
theorem foldl_addToken_mono {x i : Nat} {u : Str} (ts : List Str) :
    ∀ ti, x ∈ ti u → x ∈ (ts.foldl (addToken i) ti) u := by
  induction ts with
  | nil => exact fun _ hx => hx
  | cons t ts ih => exact fun ti hx => ih _ (addToken_mem_mono hx)

/-- Folding `addToken i` over a list containing `t` makes `i` a member at
`t`. -/
theorem foldl_addToken_self {i : Nat} {t : Str} (ts : List Str)
    (ht : t ∈ ts) : ∀ ti, i ∈ (ts.foldl (addToken i) ti) t := by
  induction ts with
  | nil => cases ht
  | cons hd tl ih =>
      intro ti
      rcases List.mem_cons.mp ht with h | h
      · subst h
        exact foldl_addToken_mono tl _ (addToken_self_mem i ti t)
      · exact ih h _

/-- Model of `buildFrom` never touches the record vector. -/
theorem buildFrom_records (l : List NodeRecord) :
    ∀ i st, (buildFrom i l st).records = st.records := by
  induction l with
  | nil => intro i st; rfl
  | cons r tl ih =>
      intro i st
      rw [buildFrom, ih, ingestStep_records]

/-- Model of `buildFrom` only appends to role-index lists. -/
theorem buildFrom_role_mono {x : Nat} {ρ : ElementRole} (l : List NodeRecord) :
    ∀ i st, x ∈ st.role_index ρ → x ∈ (buildFrom i l st).role_index ρ := by
  induction l with
  | nil => exact fun _ _ hx => hx
  | cons r tl ih =>
      intro i st hx
      refine ih _ _ ?_
      rw [ingestStep_role_index]
      split
      · exact List.mem_append_left _ hx
      · exact hx

/-- Model of `buildFrom` only adds to token-index lists. -/
theorem buildFrom_token_mono {x : Nat} {t : Str} (l : List NodeRecord) :
    ∀ i st, x ∈ st.token_index t → x ∈ (buildFrom i l st).token_index t := by
  induction l with
  | nil => exact fun _ _ hx => hx
  | cons r tl ih =>
      intro i st hx
      refine ih _ _ ?_
      rw [ingestStep_token_index]
      exact foldl_addToken_mono _ _ hx

/-- The record at offset `p` of the remaining list lands in the role index of
its role, at position `i + p`. -/
theorem buildFrom_role_mem (l : List NodeRecord) :
    ∀ p i st r, l.get? p = some r →
      (i + p) ∈ (buildFrom i l st).role_index r.role := by
  induction l with
  | nil => intro p i st r hp; cases hp
  | cons hd tl ih =>
      intro p i st r hp
      cases p with
      | zero =>
          cases hp
          rw [buildFrom]
          refine buildFrom_role_mono tl _ _ ?_
          rw [ingestStep_role_index]
          simp
      | succ q =>
          have := ih q (i + 1) (ingestStep st i hd) r hp
          rw [buildFrom]
          have harith : i + (q + 1) = (i + 1) + q := by omega
          rw [harith]
          exact this

/-- The record at offset `p` lands in the token index of each of its tokens,
at position `i + p`. -/
theorem buildFrom_token_mem (l : List NodeRecord) :
    ∀ p i st r t, l.get? p = some r → t ∈ recordTokens r →
      (i + p) ∈ (buildFrom i l st).token_index t := by
  induction l with
  | nil => intro p i st r t hp; cases hp
  | cons hd tl ih =>
      intro p i st r t hp ht
      cases p with
      | zero =>
          cases hp
          rw [buildFrom]
          refine buildFrom_token_mono tl _ _ ?_
          rw [ingestStep_token_index]
          exact foldl_addToken_self _ ht _
      | succ q =>
          have := ih q (i + 1) (ingestStep st i hd) r t hp ht
          rw [buildFrom]
          have harith : i + (q + 1) = (i + 1) + q := by omega
          rw [harith]
          exact this

/-- If no remaining record carries testid value `v`, the binding of `v` is
preserved. -/
theorem buildFrom_testid_preserve (l : List NodeRecord) :
    ∀ i st (v : Str) o,
      (∀ q rq, l.get? q = some rq →
        attrsGet rq.attrs (str "data-testid") ≠ some v) →
      st.testid_index v = o → (buildFrom i l st).testid_index v = o := by
  induction l with
  | nil => exact fun _ _ _ _ _ ho => ho
  | cons hd tl ih =>
      intro i st v o hnone ho
      rw [buildFrom]
      refine ih _ _ _ _ (fun q rq hq => hnone (q + 1) rq hq) ?_
      rw [ingestStep_testid_index]
      cases h : attrsGet hd.attrs (str "data-testid") with
      | none => exact ho
      | some w =>
          have hvw : v ≠ w := fun hvw => hnone 0 hd rfl (by rw [h, hvw])
          simp only [if_neg hvw]
          exact ho

/-- The record at offset `p` with testid value `v`, not shadowed by any later
record, determines the final binding of `v`. -/
theorem buildFrom_testid_set (l : List NodeRecord) :
    ∀ p i st r (v : Str), l.get? p = some r →
      attrsGet r.attrs (str "data-testid") = some v →
      (∀ q rq, p < q → l.get? q = some rq →
        attrsGet rq.attrs (str "data-testid") ≠ some v) →
      (buildFrom i l st).testid_index v = some (i + p) := by
  induction l with
  | nil => intro p i st r v hp; cases hp
  | cons hd tl ih =>
      intro p i st r v hp hv hlater
      cases p with
      | zero =>
          cases hp
          rw [buildFrom]
          refine buildFrom_testid_preserve tl _ _ _ _
            (fun q rq hq => hlater (q + 1) rq (Nat.succ_pos q) hq) ?_
          rw [ingestStep_testid_index, hv]
          simp
      | succ q =>
          rw [buildFrom]
          have harith : i + (q + 1) = (i + 1) + q := by omega
          rw [harith]
          exact ih q (i + 1) _ r v hp hv
            (fun q2 rq hlt hq => hlater (q2 + 1) rq (by omega) hq)

/-- C1 (counterexample): with two records sharing `data-testid = "x"`, the
record at position 0 satisfies the claim premise but
`testid_index["x"] = 1 ≠ 0` — last writer wins, so the claim as stated fails
for the earlier record. -/
theorem ingest_testid_counterexample :
    (UiDatabase.new.ingest [dupA, dupB]).records.get? 0 = some dupA ∧
    attrsGet dupA.attrs (str "data-testid") = some (str "x") ∧
    ¬ (UiDatabase.new.ingest [dupA, dupB]).testid_index (str "x") = some 0 ∧
    (UiDatabase.new.ingest [dupA, dupB]).testid_index (str "x") = some 1 := by
  decide

/-- C1 (amended): after `ingest(R)`, every record `r` at position `p` is in
`role_index[r.role]` and in `token_index[t]` for each of its tokens; and if
`r.attrs["data-testid"] = v` then `testid_index[v] = p` provided no record at
a later position also carries testid value `v` (last writer wins). -/
theorem ingest_index_fidelity (db : UiDatabase) (rs : List NodeRecord)
    (p : Nat) (r : NodeRecord) (hp : rs.get? p = some r) :
    p ∈ (db.ingest rs).role_index r.role ∧
    (∀ t, t ∈ recordTokens r → p ∈ (db.ingest rs).token_index t) ∧
    (∀ v, attrsGet r.attrs (str "data-testid") = some v →
      (∀ q rq, p < q → rs.get? q = some rq →
        attrsGet rq.attrs (str "data-testid") ≠ some v) →
      (db.ingest rs).testid_index v = some p) := by
  refine ⟨?_, fun t ht => ?_, fun v hv hlater => ?_⟩
  · have := buildFrom_role_mem rs p 0 { db.reset with records := rs } r hp
    simpa [UiDatabase.ingest] using this
  · have := buildFrom_token_mem rs p 0 { db.reset with records := rs } r t hp ht
    simpa [UiDatabase.ingest] using this
  · have := buildFrom_testid_set rs p 0 { db.reset with records := rs } r v hp hv hlater
    simpa [UiDatabase.ingest] using this

/-- Witness for `ingest_index_fidelity` at the two-record corpus, position 1
(whose testid binding is not shadowed). -/
theorem ingest_index_fidelity_witness :
    [dupA, dupB].get? 1 = some dupB ∧
    (1 ∈ (UiDatabase.new.ingest [dupA, dupB]).role_index dupB.role ∧
     (∀ t, t ∈ recordTokens dupB →
        1 ∈ (UiDatabase.new.ingest [dupA, dupB]).token_index t) ∧
     (∀ v, attrsGet dupB.attrs (str "data-testid") = some v →
        (∀ q rq, 1 < q → [dupA, dupB].get? q = some rq →
          attrsGet rq.attrs (str "data-testid") ≠ some v) →
        (UiDatabase.new.ingest [dupA, dupB]).testid_index v = some 1)) :=
  ⟨by decide, ingest_index_fidelity UiDatabase.new [dupA, dupB] 1 dupB (by decide)⟩

/-! ## Claim C7: ingest atomicity on parse errors -/

/-- C7: if the ingest payload fails to parse, `WasmUiDb::ingest` returns the
parse error and the whole state — records and all three indices — is exactly
what it was before the call. -/
theorem ingest_parse_error_is_atomic (s : WasmUiDb) (e : String) :
    (s.ingest (.error e)).2 = s ∧
    (s.ingest (.error e)).2.db.records = s.db.records ∧
    (s.ingest (.error e)).2.db.role_index = s.db.role_index ∧
    (s.ingest (.error e)).2.db.token_index = s.db.token_index ∧
    (s.ingest (.error e)).2.db.testid_index = s.db.testid_index ∧
    (s.ingest (.error e)).1 = .error ("Failed to parse records: " ++ e) :=
  ⟨rfl, rfl, rfl, rfl, rfl, rfl⟩

/-! ## Claim C3: the composite fuzzy-score formula -/

unseal Rat.add Rat.mul Rat.sub Rat.inv in
/-- C3 (counterexample): for `query = "a b"`, `target = "b c"` the normalized
forms are unequal and the target does not contain the query, yet
`fuzzy_score` returns `0` — the source returns early when the query tokenizes
to nothing — while the claimed formula
`max(token_score × 0.7, lev_score × 0.5)` evaluates to `1/6`
(`lev_score = 1 − 2/3`). -/
theorem fuzzy_score_formula_counterexample :
    normalize (str "b c") ≠ normalize (str "a b") ∧
    strContains (normalize (str "b c")) (normalize (str "a b")) = false ∧
    fuzzy_score (str "a b") (str "b c") = 0 ∧
    fuzzy_claim_rhs (str "a b") (str "b c") = 1/6 ∧
    fuzzy_score (str "a b") (str "b c") ≠ fuzzy_claim_rhs (str "a b") (str "b c") := by
  decide

/-- C3 (amended): under the additional hypothesis that the normalized query
tokenizes to a nonempty token list, `fuzzy_score` on unequal, non-containing
normalized forms is exactly `max(token_score × 0.7, lev_score × 0.5)` with
the sub-scores of the claim. -/
theorem fuzzy_score_formula (query target : Str)
    (hne : normalize target ≠ normalize query)
    (hnc : strContains (normalize target) (normalize query) = false)
    (htok : (tokenize (normalize query)).isEmpty = false) :
    fuzzy_score query target = fuzzy_claim_rhs query target := by
  simp [fuzzy_score, fuzzy_claim_rhs, hne, hnc, htok]

/-- Witness for `fuzzy_score_formula` at `query = "ab"`, `target = "cd"`. -/
theorem fuzzy_score_formula_witness :
    (normalize (str "cd") ≠ normalize (str "ab") ∧
     strContains (normalize (str "cd")) (normalize (str "ab")) = false ∧
     (tokenize (normalize (str "ab"))).isEmpty = false) ∧
    fuzzy_score (str "ab") (str "cd") = fuzzy_claim_rhs (str "ab") (str "cd") :=
  ⟨⟨by decide, by decide, by decide⟩,
   fuzzy_score_formula (str "ab") (str "cd") (by decide) (by decide) (by decide)⟩

/-! ## Claim C8: stability of the filter descriptions -/

/-- Is a clause a state clause?  (The one whose description is built inside
the per-record loop.) -/
def isStateClause : WhereClause → Bool
  | .state _ => true
  | _ => false

unseal Rat.add Rat.mul Rat.sub Rat.inv in
/-- C8 (counterexample): the same single-state-clause query produces
`filters_applied = ["state()"]` on the empty corpus and
`["state(visible=true)"]` on the two-record corpus — the state entry is not a
function of the clause alone. -/
theorem filters_applied_corpus_counterexample :
    (execute dbEmpty qState).toOption.map (fun r => r.explain.filters_applied)
      = some ["state()"] ∧
    (execute dbAB qState).toOption.map (fun r => r.explain.filters_applied)
      = some ["state(visible=true)"] ∧
    (execute dbEmpty qState).toOption.map (fun r => r.explain.filters_applied)
      ≠ (execute dbAB qState).toOption.map (fun r => r.explain.filters_applied) := by
  decide

/-- The description of a non-state clause does not depend on the corpus. -/
theorem applyFilter_desc_db_indep (db₁ db₂ : UiDatabase) (c : WhereClause)
    (h : isStateClause c = false) :
    (applyFilter db₁ c).1 = (applyFilter db₂ c).1 := by
  cases c
  case state st => simp [isStateClause] at h
  all_goals rfl

/-- Clause-list descriptions are corpus-independent when no clause is a
state clause. -/
theorem descs_db_indep (db₁ db₂ : UiDatabase) :
    ∀ cs : List WhereClause, (∀ c ∈ cs, isStateClause c = false) →
      (cs.map (applyFilter db₁)).map (·.1) = (cs.map (applyFilter db₂)).map (·.1) := by
  intro cs
  induction cs with
  | nil => intro _; rfl
  | cons c tl ih =>
      intro hns
      have hc := hns c (List.mem_cons_self c tl)
      have htl := fun x hx => hns x (List.mem_cons_of_mem c hx)
      simp only [List.map_cons]
      rw [applyFilter_desc_db_indep db₁ db₂ c hc, ih htl]

/-- C8 (amended): the explain block carries exactly one `filters_applied`
entry per where-clause, and for a query without state clauses the whole list
is a function of the clauses alone — identical across corpora.  (The state
entry, by contrast, is rebuilt inside the per-record loop and varies with the
corpus; see the counterexample.) -/
theorem filters_applied_stable (db₁ db₂ : UiDatabase) (q : QueryAST)
    (hns : ∀ c ∈ q.wh, isStateClause c = false) :
    (execute db₁ q).toOption.map (fun r => r.explain.filters_applied)
      = some ((q.wh.map (applyFilter db₁)).map (·.1)) ∧
    ((q.wh.map (applyFilter db₁)).map (·.1)).length = q.wh.length ∧
    (q.wh.map (applyFilter db₁)).map (·.1)
      = (q.wh.map (applyFilter db₂)).map (·.1) :=
  ⟨rfl, by simp, descs_db_indep db₁ db₂ q.wh hns⟩

/-- Witness for `filters_applied_stable`: the role query against the
two-record and the empty corpus. -/
theorem filters_applied_stable_witness :
    (∀ c ∈ qRole.wh, isStateClause c = false) ∧
    ((execute dbAB qRole).toOption.map (fun r => r.explain.filters_applied)
       = some ((qRole.wh.map (applyFilter dbAB)).map (·.1)) ∧
     ((qRole.wh.map (applyFilter dbAB)).map (·.1)).length = qRole.wh.length ∧
     (qRole.wh.map (applyFilter dbAB)).map (·.1)
       = (qRole.wh.map (applyFilter dbEmpty)).map (·.1)) :=
  ⟨by decide, filters_applied_stable dbAB dbEmpty qRole (by decide)⟩

/-! ## Claim C5: the near filter -/

/-- A near clause that resolves `target_id = 1` (`recA`) with radius 50. -/
def nfGood : NearFilter := { target_id := some 1, text := none, radius := 50 }

unseal Rat.add Rat.mul Rat.sub Rat.inv in
/-- C5 (counterexample): `nfBad` names no present `target_id` (99) but does
name a text ("home") contained in the name of `recB`, and `recB` is within the
default radius of the text target (itself) — so the claim promises a
nonempty filter set.  The code, however, lets the unresolvable `target_id`
veto the text fallback and produces the empty set. -/
theorem near_filter_counterexample :
    dbAB.records.all (fun r => ¬ r.id = 99) = true ∧
    strContains (lowerStr recB.name) (lowerStr (str "home")) = true ∧
    dbAB.records.get? 1 = some recB ∧
    withinRadius (center recB) (center recB) nfBad.radius = true ∧
    (applyFilter dbAB (.near nfBad)).2 1 = false ∧
    (List.range dbAB.records.length).filter (applyFilter dbAB (.near nfBad)).2
      = [] := by
  decide

/-- C5 (amended): the near filter resolves its target with `target_id`
authoritative — `text` is consulted only when `target_id` is absent — and
then passes exactly the records whose center-to-center distance is within the
radius (`withinRadius` is the exact-arithmetic form of
`sqrt(d²) ≤ radius`); if the target does not resolve the set is empty, and a
missing radius defaults to 200. -/
theorem near_filter_semantics (db : UiDatabase) (nf : NearFilter) :
    (nearTargetCenter db nf = none →
      ∀ i, (applyFilter db (.near nf)).2 i = false) ∧
    (∀ tc, nearTargetCenter db nf = some tc →
      ∀ i, ((applyFilter db (.near nf)).2 i = true ↔
        ∃ r, db.records.get? i = some r ∧
          withinRadius (center r) tc nf.radius = true)) ∧
    (nearTargetCenter db nf = none ↔
      (match nf.target_id with
       | some tid => ∀ r ∈ db.records, ¬ r.id = tid
       | none =>
           match nf.text with
           | some tx => ∀ r ∈ db.records,
               strContains (lowerStr r.name) (lowerStr tx) = false
           | none => True)) ∧
    default_radius = 200 := by
  refine ⟨?_, ?_, ?_, rfl⟩
  · intro h i
    simp only [applyFilter, h]
  · intro tc htc i
    simp only [applyFilter, htc]
    cases hr : db.records.get? i with
    | none => simp
    | some r => simp
  · unfold nearTargetCenter
    cases nf.target_id with
    | some tid =>
        simp [Option.map_eq_none, List.find?_eq_none]
    | none =>
        cases nf.text with
        | some tx => simp [Option.map_eq_none, List.find?_eq_none]
        | none => simp

unseal Rat.add Rat.mul Rat.sub Rat.inv in
/-- Witness for `near_filter_semantics` at the two-record corpus and
`nfGood`: the target resolves to the center of `recA`, `recA` passes, `recB` (400
pixels away, radius 50) does not. -/
theorem near_filter_semantics_witness :
    nearTargetCenter dbAB nfGood = some (center recA) ∧
    ((applyFilter dbAB (.near nfGood)).2 0 = true ↔
      ∃ r, dbAB.records.get? 0 = some r ∧
        withinRadius (center r) (center recA) nfGood.radius = true) ∧
    ((applyFilter dbAB (.near nfGood)).2 1 = true ↔
      ∃ r, dbAB.records.get? 1 = some r ∧
        withinRadius (center r) (center recA) nfGood.radius = true) :=
  ⟨by decide,
   (near_filter_semantics dbAB nfGood).2.1 (center recA) (by decide) 0,
   (near_filter_semantics dbAB nfGood).2.1 (center recA) (by decide) 1⟩

/-! ## Sorting facts shared by the execution claims -/

/-- Inserting adds one element. -/
theorem insertSorted_length {α : Type} (le : α → α → Bool) (x : α) :
    ∀ l, (insertSorted le x l).length = l.length + 1 := by
  intro l
  induction l with
  | nil => rfl
  | cons y ys ih =>
      unfold insertSorted
      split <;> simp [ih]

/-- Inserting is a permutation of consing. -/
theorem insertSorted_perm {α : Type} (le : α → α → Bool) (x : α) :
    ∀ l, (insertSorted le x l).Perm (x :: l) := by
  intro l
  induction l with
  | nil => exact List.Perm.refl _
  | cons y ys ih =>
      unfold insertSorted
      split
      · exact (ih.cons y).trans (List.Perm.swap x y ys)
      · exact List.Perm.refl _

/-- The insertion fold permutes its input (appended to the accumulator). -/
theorem stableSort_foldl_perm {α : Type} (le : α → α → Bool) :
    ∀ (l acc : List α),
      (l.foldl (fun acc x => insertSorted le x acc) acc).Perm (acc ++ l) := by
  intro l
  induction l with
  | nil => intro acc; simp
  | cons x xs ih =>
      intro acc
      refine (ih (insertSorted le x acc)).trans ?_
      refine (List.Perm.append_right xs (insertSorted_perm le x acc)).trans ?_
      exact (List.perm_middle).symm

/-- Model of `stableSort` permutes its input. -/
theorem stableSort_perm {α : Type} (le : α → α → Bool) (l : List α) :
    (stableSort le l).Perm l := by
  simpa [stableSort] using stableSort_foldl_perm le l []

/-- Model of `stableSort` preserves length. -/
theorem stableSort_length {α : Type} (le : α → α → Bool) (l : List α) :
    (stableSort le l).length = l.length :=
  (stableSort_perm le l).length_eq

/-- Model of `stableSort` preserves membership. -/
theorem stableSort_mem {α : Type} (le : α → α → Bool) {x : α} {l : List α} :
    x ∈ stableSort le l ↔ x ∈ l :=
  (stableSort_perm le l).mem_iff

/-- The all-positions seed leaves `range n` unchanged. -/
theorem range_filter_lt (n : Nat) :
    (List.range n).filter (fun i => decide (i < n)) = List.range n :=
  List.filter_eq_self.mpr (fun a ha => by simpa using List.mem_range.mp ha)

/-- Whatever the ordering phase does, it permutes the scored list. -/
theorem sortPhase_perm (db : UiDatabase) (q : QueryAST)
    (scored : List (Nat × ℚ)) : (sortPhase db q scored).Perm scored := by
  unfold sortPhase
  rcases q.order_by with _ | obs
  · exact stableSort_perm _ _
  · rcases obs with _ | ⟨ob, _⟩
    · exact List.Perm.refl _
    · dsimp only
      repeat' split
      all_goals exact stableSort_perm _ _

/-! ## Claim C9: queries with an empty where list -/

/-- The query with no clauses at all. -/
def qEmpty : QueryAST := { wh := [] }

/-- With no where-clauses the candidate predicate is the all-positions
seed. -/
theorem candidatesOf_nil (db : UiDatabase) (q : QueryAST) (hwh : q.wh = []) :
    candidatesOf db q = fun i => decide (i < db.records.length) := by
  simp [candidatesOf, hwh]

/-- C9: executing a query with an empty where list succeeds, every record
position remains a candidate (`total` = corpus size), and the matches are the
first `limit` (default 10) entries of the score-descending ordering of all
positions. -/
theorem empty_where_query (db : UiDatabase) (q : QueryAST)
    (hwh : q.wh = []) (hord : q.order_by = none) (hoff : q.offset = none) :
    ∃ res, execute db q = .ok res ∧
      res.total = db.records.length ∧
      res.explain.candidates_considered = db.records.length ∧
      res.«matches» =
        ((stableSort (fun a b => decide (b.2 ≤ a.2))
            ((List.range db.records.length).map
              (fun i => (i, scoreCandidate q (getRec db i))))).take
          (q.limit.getD 10)).map
          (fun p => recordToMatch (getRec db p.1) p.2) := by
  have hscored : scoredOf db q =
      (List.range db.records.length).map
        (fun i => (i, scoreCandidate q (getRec db i))) := by
    rw [scoredOf, candidatesOf_nil db q hwh, range_filter_lt]
  have hranked : rankedOf db q =
      stableSort (fun a b => decide (b.2 ≤ a.2))
        ((List.range db.records.length).map
          (fun i => (i, scoreCandidate q (getRec db i)))) := by
    rw [rankedOf, sortPhase, hord, hscored]
  refine ⟨_, rfl, ?_, ?_, ?_⟩
  · show (rankedOf db q).length = db.records.length
    rw [hranked, stableSort_length]
    simp
  · show (rankedOf db q).length = db.records.length
    rw [hranked, stableSort_length]
    simp
  · show (((rankedOf db q).drop (q.offset.getD 0)).take (q.limit.getD 10)).map _ = _
    rw [hoff, hranked]
    rfl

unseal Rat.add Rat.mul Rat.sub Rat.inv in
/-- Witness for `empty_where_query` at the two-record corpus. -/
theorem empty_where_query_witness :
    (qEmpty.wh = [] ∧ qEmpty.order_by = none ∧ qEmpty.offset = none) ∧
    (∃ res, execute dbAB qEmpty = .ok res ∧
      res.total = dbAB.records.length ∧
      res.explain.candidates_considered = dbAB.records.length ∧
      res.«matches» =
        ((stableSort (fun a b => decide (b.2 ≤ a.2))
            ((List.range dbAB.records.length).map
              (fun i => (i, scoreCandidate qEmpty (getRec dbAB i))))).take
          (qEmpty.limit.getD 10)).map
          (fun p => recordToMatch (getRec dbAB p.1) p.2)) :=
  ⟨⟨rfl, rfl, rfl⟩, empty_where_query dbAB qEmpty rfl rfl rfl⟩

/-! ## Claim C6: pagination totality -/

/-- Chopping a list into `K` consecutive `L`-sized pages reassembles it when
`K·L` covers its length. -/
theorem chunks_flatten {α : Type} (L : Nat) :
    ∀ (K : Nat) (s : List α), s.length ≤ K * L →
      ((List.range K).map (fun i => (s.drop (i * L)).take L)).flatten = s := by
  intro K
  induction K with
  | zero =>
      intro s hs
      have hnil : s = [] := by simpa using hs
      simp [hnil]
  | succ K ih =>
      intro s hs
      rw [List.range_succ_eq_map]
      simp only [List.map_cons, List.map_map, List.flatten_cons]
      have hmap : ∀ i : Nat,
          ((s.drop (Nat.succ i * L)).take L) =
            (((s.drop L).drop (i * L)).take L) := by
        intro i
        rw [List.drop_drop, Nat.succ_mul, Nat.add_comm (i * L) L]
      have hcomp :
          (List.range K).map ((fun i => (s.drop (i * L)).take L) ∘ Nat.succ)
            = (List.range K).map (fun i => ((s.drop L).drop (i * L)).take L) :=
        List.map_congr_left (fun i _ => hmap i)
      rw [Nat.succ_mul] at hs
      rw [hcomp, ih (s.drop L) (by simp only [List.length_drop]; omega)]
      simp

/-- A page of the paginated query is a slice of the ranked list. -/
theorem execute_page (db : UiDatabase) (q : QueryAST) (L o : Nat)
    (hlim : q.limit = some L) :
    (execute db { q with offset := some o }).toOption.map (·.«matches»)
      = some ((((rankedOf db q).drop o).take L).map
          (fun p => recordToMatch (getRec db p.1) p.2)) := by
  cases q with
  | mk sel wh ord lim off =>
      cases hlim
      rfl

/-- The positions entering the ranked list are pairwise distinct. -/
theorem rankedOf_nodup (db : UiDatabase) (q : QueryAST) :
    (rankedOf db q).Nodup := by
  have hfst : ((scoredOf db q).map Prod.fst).Nodup := by
    have : (scoredOf db q).map Prod.fst
        = (List.range db.records.length).filter (candidatesOf db q) := by
      simp [scoredOf, List.map_map, Function.comp_def]
    rw [this]
    exact (List.nodup_range _).filter _
  have hscored : (scoredOf db q).Nodup := hfst.of_map
  exact ((sortPhase_perm db q (scoredOf db q)).nodup_iff).mpr hscored

/-- C6: with a fixed limit `L ≥ 1` and offsets `0, L, 2L, …` covering the
candidate count, the page lengths sum to `total`, the concatenation of the
pages is exactly the full ranked result (no omissions), and the underlying
position slices are pairwise disjoint (no overlaps, each candidate in exactly
one page). -/
theorem pagination_totality (db : UiDatabase) (q : QueryAST) (L K : Nat)
    (_hL : 1 ≤ L) (hlim : q.limit = some L)
    (hK : (rankedOf db q).length ≤ K * L) :
    ((List.range K).map (fun i =>
        (((execute db { q with offset := some (i * L) }).toOption.map
            (·.«matches»)).getD []).length)).sum
      = (rankedOf db q).length ∧
    (execute db q).toOption.map (·.total) = some ((rankedOf db q).length) ∧
    ((List.range K).map (fun i =>
        ((execute db { q with offset := some (i * L) }).toOption.map
            (·.«matches»)).getD [])).flatten
      = (rankedOf db q).map (fun p => recordToMatch (getRec db p.1) p.2) ∧
    ((List.range K).map (fun i =>
        ((rankedOf db q).drop (i * L)).take L)).Pairwise List.Disjoint := by
  have hpage : ∀ i : Nat,
      ((execute db { q with offset := some (i * L) }).toOption.map
          (·.«matches»)).getD []
        = (((rankedOf db q).drop (i * L)).take L).map
            (fun p => recordToMatch (getRec db p.1) p.2) := by
    intro i
    rw [execute_page db q L (i * L) hlim]
    rfl
  have hflat := chunks_flatten L K (rankedOf db q) hK
  refine ⟨?_, rfl, ?_, ?_⟩
  · have : ((List.range K).map (fun i =>
        (((execute db { q with offset := some (i * L) }).toOption.map
            (·.«matches»)).getD []).length))
        = (List.range K).map (fun i =>
            (((rankedOf db q).drop (i * L)).take L).length) := by
      refine List.map_congr_left (fun i _ => ?_)
      rw [hpage i]
      simp
    rw [this]
    calc ((List.range K).map (fun i =>
              (((rankedOf db q).drop (i * L)).take L).length)).sum
        = (((List.range K).map (fun i =>
              ((rankedOf db q).drop (i * L)).take L)).map List.length).sum := by
          rw [List.map_map]; rfl
      _ = (((List.range K).map (fun i =>
              ((rankedOf db q).drop (i * L)).take L)).flatten).length := by
          rw [List.length_flatten]
      _ = (rankedOf db q).length := by rw [hflat]
  · have : ((List.range K).map (fun i =>
        ((execute db { q with offset := some (i * L) }).toOption.map
            (·.«matches»)).getD []))
        = ((List.range K).map (fun i =>
            ((rankedOf db q).drop (i * L)).take L)).map
              (List.map (fun p => recordToMatch (getRec db p.1) p.2)) := by
      rw [List.map_map]
      exact List.map_congr_left (fun i _ => hpage i)
    rw [this, ← List.map_flatten, hflat]
  · have hnd : (((List.range K).map (fun i =>
        ((rankedOf db q).drop (i * L)).take L)).flatten).Nodup := by
      rw [hflat]; exact rankedOf_nodup db q
    exact ((List.nodup_flatten.mp hnd).2).imp (fun h => h)

unseal Rat.add Rat.mul Rat.sub Rat.inv in
/-- Witness for `pagination_totality`: the role query with limit 1 on the
two-record corpus, one page covering the single candidate. -/
theorem pagination_totality_witness :
    (1 ≤ 1 ∧ ({ qRole with limit := some 1 } : QueryAST).limit = some 1 ∧
      (rankedOf dbAB { qRole with limit := some 1 }).length ≤ 1 * 1) ∧
    ((List.range 1).map (fun i =>
        (((execute dbAB { { qRole with limit := some 1 } with
              offset := some (i * 1) }).toOption.map
            (·.«matches»)).getD []).length)).sum
      = (rankedOf dbAB { qRole with limit := some 1 }).length :=
  ⟨⟨by decide, by decide, by decide⟩,
   (pagination_totality dbAB { qRole with limit := some 1 } 1 1 (by decide)
     (by decide) (by decide)).1⟩

/-! ## Claim C10: score bounds -/

/-- Model of `natMin` is below its right argument. -/
theorem natMin_le_right (a b : Nat) : natMin a b ≤ b := by
  unfold natMin; split <;> omega

/-- Model of `natMax` is above its left argument. -/
theorem le_natMax_left (a b : Nat) : a ≤ natMax a b := by
  unfold natMax; split <;> omega

/-- Model of `natMax` is monotone in both arguments. -/
theorem natMax_le_natMax {a b c d : Nat} (h1 : a ≤ c) (h2 : b ≤ d) :
    natMax a b ≤ natMax c d := by
  unfold natMax; split_ifs <;> omega

/-- Model of `natMax` distributes over `+ 1`. -/
theorem natMax_succ (a b : Nat) : natMax (a + 1) (b + 1) = natMax a b + 1 := by
  unfold natMax; split_ifs <;> omega

/-- Model of `rustMax` is below any common upper bound. -/
theorem rustMax_le {a b c : ℚ} (ha : a ≤ c) (hb : b ≤ c) : rustMax a b ≤ c := by
  unfold rustMax; split <;> assumption

/-- Model of `rustMax` is above its left argument. -/
theorem le_rustMax_left (a b : ℚ) : a ≤ rustMax a b := by
  unfold rustMax; split
  · assumption
  · exact le_refl a

/-- Model of `rustMin` is below its right argument. -/
theorem rustMin_le_right (a b : ℚ) : rustMin a b ≤ b := by
  unfold rustMin; split
  · assumption
  · exact le_refl b

/-- Model of `rustMin` is above any common lower bound. -/
theorem le_rustMin {a b c : ℚ} (ha : c ≤ a) (hb : c ≤ b) : c ≤ rustMin a b := by
  unfold rustMin; split <;> assumption

/-- A character occupies at least one byte, so byte length dominates
character count. -/
theorem length_le_byteLen (s : Str) : s.length ≤ byteLen s := by
  induction s with
  | nil => simp [byteLen]
  | cons c cs ih =>
      have := Char.utf8Size_pos c
      simp only [byteLen, List.map_cons, List.sum_cons, List.length_cons]
      simp only [byteLen] at ih
      omega

/-- The Levenshtein recurrence never exceeds the longer input. -/
theorem levAux_le (fuel : Nat) : ∀ a b : Str,
    levAux fuel a b ≤ natMax a.length b.length := by
  induction fuel with
  | zero =>
      intro a b
      cases a with
      | nil => simp [levAux, natMax]
      | cons x xs =>
          cases b with
          | nil => simp [levAux, natMax]
          | cons y ys => simp [levAux]
  | succ fuel ih =>
      intro a b
      cases a with
      | nil => simp [levAux, natMax]
      | cons x xs =>
          cases b with
          | nil => simp [levAux, natMax]
          | cons y ys =>
              have h3 := ih xs ys
              have hcost : (if x = y then 0 else 1) ≤ 1 := by split <;> omega
              calc levAux (fuel + 1) (x :: xs) (y :: ys)
                  ≤ levAux fuel xs ys + (if x = y then 0 else 1) := by
                    simp only [levAux]
                    exact (natMin_le_right _ _).trans (natMin_le_right _ _)
                _ ≤ natMax xs.length ys.length + 1 := by omega
                _ = natMax (xs.length + 1) (ys.length + 1) := (natMax_succ _ _).symm
                _ = natMax (x :: xs).length (y :: ys).length := by
                    simp [List.length_cons]

/-- Model of `levenshtein` never exceeds the longer input. -/
theorem levenshtein_le (a b : Str) :
    levenshtein a b ≤ natMax a.length b.length :=
  levAux_le _ a b

/-- Model of `fuzzy_score` stays within `[0, 1]`. -/
theorem fuzzy_score_bounds (query target : Str) :
    0 ≤ fuzzy_score query target ∧ fuzzy_score query target ≤ 1 := by
  simp only [fuzzy_score]
  by_cases h1 : normalize target = normalize query
  · simp [h1]
  · simp only [if_neg h1]
    by_cases h2 : strContains (normalize target) (normalize query) = true
    · simp only [if_pos h2]
      norm_num
    · simp only [if_neg h2]
      by_cases h3 : (tokenize (normalize query)).isEmpty = true
      · simp [h3]
      · simp only [if_neg h3]
        set q := normalize query
        set t := normalize target
        set q_tokens := tokenize q with hq_tokens
        have hlen : 0 < (q_tokens.length : ℚ) := by
          have hne : q_tokens ≠ [] := by
            intro h
            exact h3 (by simp [h])
          have : 0 < q_tokens.length := List.length_pos.mpr hne
          exact_mod_cast this
        set overlap := (q_tokens.filter (fun qt =>
          (tokenize t).any (fun tt => strContains tt qt || strContains qt tt))).length
          with hoverlap
        have hts0 : 0 ≤ (overlap : ℚ) / (q_tokens.length : ℚ) :=
          div_nonneg (by positivity) (le_of_lt hlen)
        have hts1 : (overlap : ℚ) / (q_tokens.length : ℚ) ≤ 1 := by
          rw [div_le_one hlen]
          exact_mod_cast List.length_filter_le _ _
        set t_truncated : Str := t.take (byteLen q + 10) with htt
        set max_len := natMax (byteLen q) (byteLen t_truncated) with hml
        have hls0 : 0 ≤ (if 0 < max_len then
            1 - (levenshtein q t_truncated : ℚ) / (max_len : ℚ) else 0) := by
          split
          · rename_i hpos
            have hdle : levenshtein q t_truncated ≤ max_len := by
              refine (levenshtein_le q t_truncated).trans ?_
              exact natMax_le_natMax (length_le_byteLen q) (length_le_byteLen t_truncated)
            have : (levenshtein q t_truncated : ℚ) / (max_len : ℚ) ≤ 1 := by
              rw [div_le_one (by exact_mod_cast hpos)]
              exact_mod_cast hdle
            linarith
          · exact le_refl 0
        have hls1 : (if 0 < max_len then
            1 - (levenshtein q t_truncated : ℚ) / (max_len : ℚ) else 0) ≤ 1 := by
          split
          · rename_i hpos
            have : 0 ≤ (levenshtein q t_truncated : ℚ) / (max_len : ℚ) :=
              div_nonneg (by positivity) (by positivity)
            linarith
          · norm_num
        constructor
        · refine le_trans ?_ (le_rustMax_left _ _)
          positivity
        · refine rustMax_le ?_ ?_
          · nlinarith
          · nlinarith

/-- Each clause adjustment only increases the accumulated score. -/
theorem scoreCandidate_foldl_ge (r : NodeRecord) (cls : List WhereClause) :
    ∀ acc : ℚ, acc ≤ cls.foldl
      (fun score clause =>
        match clause with
        | .name nf => score + fuzzy_score nf.value r.name * (3/10)
        | .context cf => score + fuzzy_score cf.value (joinSpace r.context) * (2/10)
        | .role rv =>
            if (rolesOf rv).any (fun ρ => ρ = r.role) then score + 1/10 else score
        | .state _ => score + 5/100
        | _ => score) acc := by
  induction cls with
  | nil => exact fun acc => le_refl acc
  | cons c tl ih =>
      intro acc
      refine le_trans ?_ (ih _)
      cases c with
      | name nf =>
          have h := (fuzzy_score_bounds nf.value r.name).1
          dsimp only
          nlinarith
      | context cf =>
          have h := (fuzzy_score_bounds cf.value (joinSpace r.context)).1
          dsimp only
          nlinarith
      | role rv =>
          dsimp only
          split <;> linarith
      | state st => dsimp only; linarith
      | attr af => exact le_refl acc
      | near nf => exact le_refl acc
      | nth n => exact le_refl acc

/-- The candidate score is always in `[1/2, 1]`. -/
theorem scoreCandidate_bounds (q : QueryAST) (r : NodeRecord) :
    1/2 ≤ scoreCandidate q r ∧ scoreCandidate q r ≤ 1 := by
  unfold scoreCandidate
  have hbase : (1/2 : ℚ) ≤ q.wh.foldl _ (1/2) := scoreCandidate_foldl_ge r q.wh (1/2)
  constructor
  · refine le_rustMin ?_ (by norm_num)
    split
    · split <;> linarith
    · split <;> linarith
  · exact rustMin_le_right _ _

/-- Rounding to two decimals keeps a score inside `[1/2, 1]`. -/
theorem round2_bounds (s : ℚ) (h1 : 1/2 ≤ s) (h2 : s ≤ 1) :
    1/2 ≤ round2 s ∧ round2 s ≤ 1 := by
  have hpos : (0 : ℚ) ≤ s * 100 := by linarith
  have hR : rustRound (s * 100) = ⌊s * 100 + 1/2⌋ := by
    unfold rustRound
    rw [if_pos hpos]
  have hlow : (50 : ℤ) ≤ ⌊s * 100 + 1/2⌋ := by
    rw [Int.le_floor]
    push_cast
    linarith
  have hhigh : ⌊s * 100 + 1/2⌋ ≤ 100 := by
    have hle : ((⌊s * 100 + 1/2⌋ : ℤ) : ℚ) ≤ s * 100 + 1/2 := Int.floor_le _
    have hlt : ((⌊s * 100 + 1/2⌋ : ℤ) : ℚ) < ((101 : ℤ) : ℚ) := by push_cast; linarith
    have := Int.cast_lt.mp hlt
    omega
  have hlowq : (50 : ℚ) ≤ ((⌊s * 100 + 1/2⌋ : ℤ) : ℚ) := by exact_mod_cast hlow
  have hhighq : ((⌊s * 100 + 1/2⌋ : ℤ) : ℚ) ≤ 100 := by exact_mod_cast hhigh
  unfold round2
  rw [hR]
  constructor
  · linarith
  · linarith

/-- C10: every `MatchResult` returned by `execute` carries a score in
`[0.5, 1.0]`: the base is 0.5, every adjustment is nonnegative, the sum is
capped at 1.0 after all additions, and two-decimal rounding preserves the
bounds. -/
theorem match_score_bounds (db : UiDatabase) (q : QueryAST)
    (res : QueryResult) (hres : execute db q = .ok res)
    (m : MatchResult) (hm : m ∈ res.«matches») :
    1/2 ≤ m.score ∧ m.score ≤ 1 := by
  unfold execute at hres
  rw [Except.ok.injEq] at hres
  subst hres
  simp only at hm
  obtain ⟨p, hp, rfl⟩ := List.mem_map.mp hm
  have hp2 : p ∈ rankedOf db q :=
    List.mem_of_mem_drop (List.mem_of_mem_take hp)
  have hp3 : p ∈ scoredOf db q :=
    (sortPhase_perm db q (scoredOf db q)).mem_iff.mp hp2
  obtain ⟨i, _, rfl⟩ := List.mem_map.mp hp3
  have hsc := scoreCandidate_bounds q (getRec db i)
  have hr := round2_bounds _ hsc.1 hsc.2
  exact hr

unseal Rat.add Rat.mul Rat.sub Rat.inv in
/-- Witness for `match_score_bounds`: the single match of the role query on
the two-record corpus. -/
theorem match_score_bounds_witness :
    execute dbAB qRole = .ok
      { «matches» := [recordToMatch recA (13/20)], total := 1,
        explain := { candidates_considered := 1,
                     filters_applied := ["role=button"],
                     execution_time_ms := 0 } } ∧
    (1/2 ≤ (recordToMatch recA (13/20)).score ∧
      (recordToMatch recA (13/20)).score ≤ 1) :=
  ⟨rfl,
   match_score_bounds dbAB qRole
     { «matches» := [recordToMatch recA (13/20)], total := 1,
       explain := { candidates_considered := 1,
                    filters_applied := ["role=button"],
                    execution_time_ms := 0 } }
     rfl (recordToMatch recA (13/20)) (List.mem_singleton_self _)⟩

/-! ## Claim C2: LRU cache invariants -/

/-- Model of `containsKey` is membership in the key column. -/
theorem containsKey_eq (l : EntryMap) (k : Str) :
    containsKey l k = true ↔ k ∈ l.map Prod.fst := by
  rw [containsKey, List.any_eq_true]
  constructor
  · rintro ⟨p, hp, he⟩
    have hpk : p.1 = k := of_decide_eq_true he
    exact hpk ▸ List.mem_map_of_mem Prod.fst hp
  · intro hk
    rcases List.mem_map.mp hk with ⟨p, hp, hpk⟩
    exact ⟨p, hp, by simp [hpk]⟩

/-- Model of `bumpCount` does not change the key column. -/
theorem map_fst_bumpCount (l : EntryMap) (k : Str) :
    (bumpCount l k).map Prod.fst = l.map Prod.fst := by
  unfold bumpCount
  rw [List.map_map]
  refine List.map_congr_left (fun p _ => ?_)
  by_cases h : p.1 = k <;> simp [h]

/-- Model of `setEmbedding` does not change the key column. -/
theorem map_fst_setEmbedding (l : EntryMap) (k : Str) (emb : List ℚ) :
    (setEmbedding l k emb).map Prod.fst = l.map Prod.fst := by
  unfold setEmbedding
  rw [List.map_map]
  refine List.map_congr_left (fun p _ => ?_)
  by_cases h : p.1 = k <;> simp [h]

/-- Model of `bumpCount` preserves length. -/
theorem length_bumpCount (l : EntryMap) (k : Str) :
    (bumpCount l k).length = l.length := List.length_map _ _

/-- Model of `setEmbedding` preserves length. -/
theorem length_setEmbedding (l : EntryMap) (k : Str) (emb : List ℚ) :
    (setEmbedding l k emb).length = l.length := List.length_map _ _

/-- Key membership after `removeKey`. -/
theorem containsKey_removeKey (l : EntryMap) (k u : Str) :
    containsKey (removeKey l k) u = true ↔
      containsKey l u = true ∧ u ≠ k := by
  simp only [containsKey, removeKey, List.any_eq_true, List.mem_filter,
    decide_not, Bool.not_eq_eq_eq_not, Bool.not_true, decide_eq_false_iff_not]
  constructor
  · rintro ⟨p, ⟨hp, hpk⟩, hpu⟩
    have : p.1 = u := by simpa using hpu
    exact ⟨⟨p, hp, hpu⟩, by rw [← this]; exact hpk⟩
  · rintro ⟨⟨p, hp, hpu⟩, huk⟩
    have : p.1 = u := by simpa using hpu
    exact ⟨p, ⟨hp, by rw [this]; exact huk⟩, hpu⟩

/-- Model of `removeKey` keeps a sub-column of keys. -/
theorem map_fst_removeKey_sublist (l : EntryMap) (k : Str) :
    ((removeKey l k).map Prod.fst).Sublist (l.map Prod.fst) :=
  (List.filter_sublist l).map Prod.fst

/-- Removing a present key strictly shrinks the map. -/
theorem removeKey_length_lt (l : EntryMap) (k : Str)
    (h : containsKey l k = true) : (removeKey l k).length < l.length := by
  induction l with
  | nil => simp [containsKey] at h
  | cons p ps ih =>
      rw [removeKey, List.filter_cons]
      by_cases hp : p.1 = k
      · have hpred : (decide (¬ p.1 = k)) = false := by simp [hp]
        rw [hpred]
        simp only [Bool.false_eq_true, if_false, List.length_cons]
        have hle := List.length_filter_le (fun q : Str × CacheEntry => decide (¬ q.1 = k)) ps
        omega
      · have hpred : (decide (¬ p.1 = k)) = true := by simp [hp]
        rw [hpred]
        simp only [if_true, List.length_cons]
        have hps : containsKey ps k = true := by
          have h2 := h
          rw [containsKey, List.any_cons] at h2
          simp only [Bool.or_eq_true] at h2
          rcases h2 with h2 | h2
          · exact absurd (of_decide_eq_true h2) hp
          · rw [containsKey]
            exact h2
        have hlt := ih hps
        rw [removeKey] at hlt
        omega

/-- Key membership over an appended singleton. -/
theorem containsKey_append_single (l : EntryMap) (p : Str × CacheEntry)
    (k : Str) :
    containsKey (l ++ [p]) k = true ↔ containsKey l k = true ∨ k = p.1 := by
  rw [containsKey, List.any_append]
  simp only [Bool.or_eq_true]
  constructor
  · rintro (h | h)
    · exact Or.inl h
    · right
      have : p.1 = k := by simpa using h
      exact this.symm
  · rintro (h | h)
    · exact Or.inl h
    · right
      simpa using h.symm

/-- When the map is already below capacity the eviction loop does nothing. -/
theorem evictLoop_noop (cap : Nat) (order : List Str) (entries : EntryMap)
    (h : entries.length < cap) : evictLoop cap order entries = (order, entries) := by
  cases order with
  | nil => rfl
  | cons o rest => rw [evictLoop, if_pos h]

/-- The eviction loop: key set and recency sequence stay in step, the
sequence remains a suffix (in particular a sublist) of the input, the key
column stays duplicate-free, and the result is strictly below capacity. -/
theorem evictLoop_spec (cap : Nat) (hcap : 1 ≤ cap) :
    ∀ (order : List Str) (entries : EntryMap),
      (∀ k, containsKey entries k = true ↔ k ∈ order) →
      order.Nodup → (entries.map Prod.fst).Nodup →
      (∀ k, containsKey (evictLoop cap order entries).2 k = true ↔
          k ∈ (evictLoop cap order entries).1) ∧
      (evictLoop cap order entries).1.Sublist order ∧
      ((evictLoop cap order entries).2.map Prod.fst).Nodup ∧
      (evictLoop cap order entries).2.length < cap := by
  intro order
  induction order with
  | nil =>
      intro entries hsync _ hnd2
      have hent : entries = [] := by
        cases entries with
        | nil => rfl
        | cons p ps =>
            have hc : containsKey (p :: ps) p.1 = true := by simp [containsKey]
            have := (hsync p.1).mp hc
            simp at this
      subst hent
      refine ⟨by simp [evictLoop, containsKey], by simp [evictLoop], by simp [evictLoop], ?_⟩
      simpa [evictLoop] using hcap
  | cons o rest ih =>
      intro entries hsync hnd hnd2
      rw [evictLoop]
      split
      · rename_i hlt
        exact ⟨hsync, List.Sublist.refl _, hnd2, hlt⟩
      · rename_i hge
        have hsync2 : ∀ k, containsKey (removeKey entries o) k = true ↔ k ∈ rest := by
          intro k
          rw [containsKey_removeKey]
          constructor
          · rintro ⟨hc, hne⟩
            rcases List.mem_cons.mp ((hsync k).mp hc) with h | h
            · exact absurd h hne
            · exact h
          · intro hk
            refine ⟨(hsync k).mpr (List.mem_cons_of_mem _ hk), ?_⟩
            intro hko
            subst hko
            exact (List.nodup_cons.mp hnd).1 hk
        have hnd2r : ((removeKey entries o).map Prod.fst).Nodup :=
          hnd2.sublist (map_fst_removeKey_sublist entries o)
        have hres := ih (removeKey entries o) hsync2 (List.nodup_cons.mp hnd).2 hnd2r
        exact ⟨hres.1, hres.2.1.trans (List.sublist_cons_self o rest), hres.2.2⟩

/-- Model of `a` was last accessed strictly before `b` (with respect to a last-access
time table). -/
def RecOrd (tm : Str → Option Nat) (a b : Str) : Prop :=
  ∀ ta tb, tm a = some ta → tm b = some tb → ta < tb

/-- The replay invariant: key set and recency sequence agree, no duplicates,
size bounded by a positive capacity, and the recency sequence is sorted by
last-access time (front = oldest), all times being in the past. -/
structure CacheInv (c : EmbeddingCache) (tm : Str → Option Nat) (n : Nat) :
    Prop where
  sync : ∀ k, containsKey c.entries k = true ↔ k ∈ c.access_order
  nodupOrder : c.access_order.Nodup
  nodupKeys : (c.entries.map Prod.fst).Nodup
  sizeLe : c.entries.length ≤ c.capacity
  capPos : 1 ≤ c.capacity
  times : ∀ k ∈ c.access_order, ∃ t, tm k = some t ∧ t < n
  sorted : c.access_order.Pairwise (RecOrd tm)

/-- Pushing a freshly accessed key to the back preserves the recency
invariants, for any keep-sublist `o2` of the old sequence avoiding the
key. -/
theorem order_push_inv (order o2 : List Str) (tm : Str → Option Nat) (n : Nat)
    (fp : Str) (hsub : o2.Sublist order) (hfp : fp ∉ o2)
    (htimes : ∀ k ∈ order, ∃ t, tm k = some t ∧ t < n)
    (hnd : order.Nodup)
    (hsorted : List.Pairwise (RecOrd tm) order) :
    (o2 ++ [fp]).Nodup ∧
    (∀ k ∈ o2 ++ [fp],
      ∃ t, (if k = fp then some n else tm k) = some t ∧ t < n + 1) ∧
    List.Pairwise (RecOrd (fun k => if k = fp then some n else tm k))
      (o2 ++ [fp]) := by
  refine ⟨?_, ?_, ?_⟩
  · exact List.nodup_append.mpr
      ⟨hnd.sublist hsub, List.nodup_singleton fp, by simpa using hfp⟩
  · intro k hk
    rcases List.mem_append.mp hk with hk | hk
    · have hkfp : k ≠ fp := fun he => hfp (he ▸ hk)
      rw [if_neg hkfp]
      rcases htimes k (hsub.subset hk) with ⟨t, ht, hlt⟩
      exact ⟨t, ht, by omega⟩
    · have hkfp : k = fp := by simpa using hk
      rw [if_pos hkfp]
      exact ⟨n, rfl, by omega⟩
  · refine List.pairwise_append.mpr ⟨?_, List.pairwise_singleton _ _, ?_⟩
    · refine (hsorted.sublist hsub).imp_of_mem ?_
      intro a b ha hb hab
      intro ta tb hta htb
      have hafp : a ≠ fp := fun he => hfp (he ▸ ha)
      have hbfp : b ≠ fp := fun he => hfp (he ▸ hb)
      simp only [if_neg hafp] at hta
      simp only [if_neg hbfp] at htb
      exact hab ta tb hta htb
    · intro a ha b hb
      have hbfp : b = fp := by simpa using hb
      subst hbfp
      have hafp : a ≠ b := fun he => hfp (he ▸ ha)
      intro ta tb hta htb
      simp only [if_neg hafp] at hta
      simp only [if_pos rfl] at htb
      rcases htimes a (hsub.subset ha) with ⟨t, ht, hlt⟩
      rw [ht] at hta
      cases hta
      cases htb
      omega

/-- One operation preserves the replay invariant. -/
theorem inv_step (c : EmbeddingCache) (tm : Str → Option Nat) (n : Nat)
    (op : CacheOp) (h : CacheInv c tm n) :
    CacheInv (applyOp c op) (accessUpd c tm n op) (n + 1) := by
  have hmono : ∀ k ∈ c.access_order, ∃ t, tm k = some t ∧ t < n + 1 := by
    intro k hk
    rcases h.times k hk with ⟨t, ht, hlt⟩
    exact ⟨t, ht, by omega⟩
  cases op with
  | peek fp =>
      exact ⟨h.sync, h.nodupOrder, h.nodupKeys, h.sizeLe, h.capPos, hmono,
        h.sorted⟩
  | clear =>
      refine ⟨?_, ?_, ?_, ?_, h.capPos, ?_, ?_⟩ <;>
        simp [applyOp, EmbeddingCache.clear, containsKey]
  | get fp =>
      by_cases hc : containsKey c.entries fp = true
      · have hstate : applyOp c (.get fp) =
            { c with
                access_order := (c.access_order.filter (fun k => ¬ k = fp)) ++ [fp],
                entries := bumpCount c.entries fp } := by
          simp [applyOp, EmbeddingCache.get, hc]
        have htm : accessUpd c tm n (.get fp) =
            fun k => if k = fp then some n else tm k := by
          simp [accessUpd, hc]
        rw [hstate, htm]
        have hfpfil : fp ∉ c.access_order.filter (fun k => ¬ k = fp) := by
          simp
        have hpush := order_push_inv c.access_order
          (c.access_order.filter (fun k => ¬ k = fp)) tm n fp
          (List.filter_sublist _) hfpfil h.times h.nodupOrder h.sorted
        refine ⟨?_, hpush.1, ?_, ?_, h.capPos, hpush.2.1, hpush.2.2⟩
        · intro k
          rw [containsKey_eq, map_fst_bumpCount, ← containsKey_eq, h.sync]
          simp only [List.mem_append, List.mem_filter, List.mem_singleton]
          constructor
          · intro hk
            by_cases hkfp : k = fp
            · exact Or.inr hkfp
            · exact Or.inl ⟨hk, by simpa using hkfp⟩
          · rintro (⟨hk, _⟩ | hk)
            · exact hk
            · exact hk ▸ (h.sync fp).mp hc
        · rw [map_fst_bumpCount]
          exact h.nodupKeys
        · rw [length_bumpCount]
          exact h.sizeLe
      · have hstate : applyOp c (.get fp) = c := by
          simp [applyOp, EmbeddingCache.get, hc]
        have htm : accessUpd c tm n (.get fp) = tm := by
          simp [accessUpd, hc]
        rw [hstate, htm]
        exact ⟨h.sync, h.nodupOrder, h.nodupKeys, h.sizeLe, h.capPos, hmono,
          h.sorted⟩
  | put fp emb =>
      by_cases hc : containsKey c.entries fp = true
      · have hstate : applyOp c (.put fp emb) =
            { c with
                entries := setEmbedding c.entries fp emb,
                access_order := (c.access_order.filter (fun k => ¬ k = fp)) ++ [fp] } := by
          simp [applyOp, EmbeddingCache.put, hc]
        have htm : accessUpd c tm n (.put fp emb) =
            fun k => if k = fp then some n else tm k := rfl
        rw [hstate, htm]
        have hfpfil : fp ∉ c.access_order.filter (fun k => ¬ k = fp) := by
          simp
        have hpush := order_push_inv c.access_order
          (c.access_order.filter (fun k => ¬ k = fp)) tm n fp
          (List.filter_sublist _) hfpfil h.times h.nodupOrder h.sorted
        refine ⟨?_, hpush.1, ?_, ?_, h.capPos, hpush.2.1, hpush.2.2⟩
        · intro k
          rw [containsKey_eq, map_fst_setEmbedding, ← containsKey_eq, h.sync]
          simp only [List.mem_append, List.mem_filter, List.mem_singleton]
          constructor
          · intro hk
            by_cases hkfp : k = fp
            · exact Or.inr hkfp
            · exact Or.inl ⟨hk, by simpa using hkfp⟩
          · rintro (⟨hk, _⟩ | hk)
            · exact hk
            · exact hk ▸ (h.sync fp).mp hc
        · rw [map_fst_setEmbedding]
          exact h.nodupKeys
        · rw [length_setEmbedding]
          exact h.sizeLe
      · have hspec := evictLoop_spec c.capacity h.capPos c.access_order
          c.entries h.sync h.nodupOrder h.nodupKeys
        rcases heq : evictLoop c.capacity c.access_order c.entries with ⟨o2, e2⟩
        rw [heq] at hspec
        have hstate : applyOp c (.put fp emb) =
            { c with
                entries := e2 ++ [(fp, ⟨emb, 1⟩)],
                access_order := o2 ++ [fp] } := by
          simp [applyOp, EmbeddingCache.put, hc, heq]
        have htm : accessUpd c tm n (.put fp emb) =
            fun k => if k = fp then some n else tm k := rfl
        rw [hstate, htm]
        have hfpord : fp ∉ c.access_order := fun hmem =>
          by rw [← h.sync fp] at hmem; exact absurd hmem (by simp [hc])
        have hfpo2 : fp ∉ o2 := fun hmem => hfpord (hspec.2.1.subset hmem)
        have hpush := order_push_inv c.access_order o2 tm n fp hspec.2.1
          hfpo2 h.times h.nodupOrder h.sorted
        refine ⟨?_, hpush.1, ?_, ?_, h.capPos, hpush.2.1, hpush.2.2⟩
        · intro k
          rw [containsKey_append_single]
          simp only [List.mem_append, List.mem_singleton]
          constructor
          · rintro (hk | hk)
            · exact Or.inl ((hspec.1 k).mp hk)
            · exact Or.inr hk
          · rintro (hk | hk)
            · exact Or.inl ((hspec.1 k).mpr hk)
            · exact Or.inr hk
        · rw [List.map_append]
          refine List.nodup_append.mpr ⟨hspec.2.2.1, List.nodup_singleton _, ?_⟩
          intro a ha hb
          have hb2 : a = fp := by simpa using hb
          subst hb2
          have : containsKey e2 a = true := (containsKey_eq _ _).mpr ha
          exact hfpo2 ((hspec.1 a).mp this)
        · rw [List.length_append]
          have hlen : e2.length < c.capacity := hspec.2.2.2
          simp only [List.length_singleton]
          omega

/-- The replay invariant holds along every fold of `traceStep`. -/
theorem foldl_traceStep_inv (ops : List CacheOp) :
    ∀ s : EmbeddingCache × (Str → Option Nat) × Nat,
      CacheInv s.1 s.2.1 s.2.2 →
      CacheInv (ops.foldl traceStep s).1 (ops.foldl traceStep s).2.1
        (ops.foldl traceStep s).2.2 := by
  induction ops with
  | nil => exact fun s hs => hs
  | cons op tl ih =>
      intro s hs
      exact ih (traceStep s op) (inv_step s.1 s.2.1 s.2.2 op hs)

/-- The replay invariant after any operation sequence from a fresh cache. -/
theorem runTrace_inv (cap : Nat) (hcap : 1 ≤ cap) (ops : List CacheOp) :
    CacheInv (runTrace cap ops).1 (runTrace cap ops).2.1
      (runTrace cap ops).2.2 := by
  refine foldl_traceStep_inv ops _ ?_
  exact ⟨by simp [EmbeddingCache.mk0, containsKey], by simp [EmbeddingCache.mk0],
    by simp [EmbeddingCache.mk0], by simp [EmbeddingCache.mk0], hcap,
    by simp [EmbeddingCache.mk0], by simp [EmbeddingCache.mk0]⟩

/-- The traced replay computes the same state as the plain replay. -/
theorem runTrace_fst (ops : List CacheOp) :
    ∀ (c : EmbeddingCache) (tm : Str → Option Nat) (n : Nat),
      (ops.foldl traceStep (c, tm, n)).1 = ops.foldl applyOp c := by
  induction ops with
  | nil => intro c tm n; rfl
  | cons op tl ih => intro c tm n; exact ih _ _ _

/-- Model of `runOps` is the first component of `runTrace`. -/
theorem runOps_eq_runTrace (cap : Nat) (ops : List CacheOp) :
    (runTrace cap ops).1 = runOps cap ops :=
  runTrace_fst ops _ _ _

/-- No operation changes the configured capacity. -/
theorem runOps_capacity (cap : Nat) (ops : List CacheOp) :
    (runOps cap ops).capacity = cap := by
  have hstep : ∀ (c : EmbeddingCache) (op : CacheOp),
      (applyOp c op).capacity = c.capacity := by
    intro c op
    cases op with
    | get fp =>
        by_cases hc : containsKey c.entries fp = true <;>
          simp [applyOp, EmbeddingCache.get, hc]
    | put fp emb =>
        by_cases hc : containsKey c.entries fp = true
        · simp [applyOp, EmbeddingCache.put, hc]
        · rcases heq : evictLoop c.capacity c.access_order c.entries with ⟨o2, e2⟩
          simp [applyOp, EmbeddingCache.put, hc, heq]
    | peek fp => rfl
    | clear => rfl
  suffices h : ∀ (ops : List CacheOp) (c : EmbeddingCache),
      (ops.foldl applyOp c).capacity = c.capacity by
    exact h ops _
  intro ops
  induction ops with
  | nil => intro c; rfl
  | cons op tl ih => intro c; rw [List.foldl_cons, ih, hstep]

/-- C2: from a fresh capacity-`N` cache (`N ≥ 1`), after any sequence of
get/put/peek/clear operations: `size ≤ N` holds; a `put` of an absent key at
`size = N` evicts exactly the head of the recency sequence, which was
accessed (by `get` or `put`) strictly earlier than every other cached key;
and a `get(k)` followed by a `put` that stays within capacity never evicts
`k`. -/
theorem cache_lru_invariant (cap : Nat) (hcap : 1 ≤ cap)
    (ops : List CacheOp) :
    (runOps cap ops).size ≤ cap ∧
    (∀ fp emb, containsKey (runOps cap ops).entries fp = false →
      (runOps cap ops).size = cap →
      ∃ victim rest,
        (runOps cap ops).access_order = victim :: rest ∧
        containsKey (((runOps cap ops).put fp emb)).entries victim = false ∧
        (∀ k, containsKey (runOps cap ops).entries k = true → k ≠ victim →
          containsKey (((runOps cap ops).put fp emb)).entries k = true) ∧
        (∀ k, k ∈ (runOps cap ops).access_order → k ≠ victim →
          ∃ tv tk, lastAccess cap ops victim = some tv ∧
            lastAccess cap ops k = some tk ∧ tv < tk)) ∧
    (∀ k fp emb, containsKey (runOps cap ops).entries k = true →
      ((runOps cap ops).get k).2.size < cap →
      containsKey ((((runOps cap ops).get k).2.put fp emb)).entries k = true) := by
  have hinv := runTrace_inv cap hcap ops
  rw [runOps_eq_runTrace] at hinv
  have hcapeq := runOps_capacity cap ops
  set c := runOps cap ops with hc
  refine ⟨?_, ?_, ?_⟩
  · show c.entries.length ≤ cap
    rw [← hcapeq]
    exact hinv.sizeLe
  · intro fp emb habs hsize
    have hsize2 : c.entries.length = c.capacity := by rw [hcapeq]; exact hsize
    -- the recency sequence is nonempty
    obtain ⟨victim, rest, hord⟩ : ∃ v r, c.access_order = v :: r := by
      cases hord : c.access_order with
      | nil =>
          exfalso
          have hent : c.entries = [] := by
            cases hent : c.entries with
            | nil => rfl
            | cons p ps =>
                have hck : containsKey c.entries p.1 = true := by
                  rw [hent]; simp [containsKey]
                have := (hinv.sync p.1).mp hck
                rw [hord] at this
                simp at this
          have : c.entries.length = 0 := by rw [hent]; rfl
          rw [hsize2, hcapeq] at this
          omega
      | cons v r => exact ⟨v, r, rfl⟩
    refine ⟨victim, rest, hord, ?_, ?_, ?_⟩
    all_goals
      have hvictim_mem : victim ∈ c.access_order := by rw [hord]; simp
    all_goals
      have hvic_in : containsKey c.entries victim = true :=
        (hinv.sync victim).mpr hvictim_mem
    all_goals
      have hvfp : victim ≠ fp := by
        intro he
        rw [he, habs] at hvic_in
        cases hvic_in
    all_goals
      have hput : (c.put fp emb).entries
          = removeKey c.entries victim ++ [(fp, ⟨emb, 1⟩)] := by
        have hnlt : ¬ c.entries.length < c.capacity := by omega
        have hlt2 : (removeKey c.entries victim).length < c.capacity := by
          have := removeKey_length_lt c.entries victim hvic_in
          omega
        have hloop : evictLoop c.capacity c.access_order c.entries
            = (rest, removeKey c.entries victim) := by
          rw [hord, evictLoop, if_neg hnlt, evictLoop_noop _ _ _ hlt2]
        simp [EmbeddingCache.put, habs, hloop]
    · rw [hput, Bool.eq_false_iff]
      intro hmem
      rcases (containsKey_append_single _ _ _).mp hmem with h | h
      · exact ((containsKey_removeKey _ _ _).mp h).2 rfl
      · exact hvfp h
    · intro k hk hkv
      rw [hput, containsKey_append_single]
      exact Or.inl ((containsKey_removeKey _ _ _).mpr ⟨hk, hkv⟩)
    · intro k hk hkv
      have hkrest : k ∈ rest := by
        rw [hord] at hk
        rcases List.mem_cons.mp hk with h | h
        · exact absurd h hkv
        · exact h
      have hpair := hinv.sorted
      rw [hord] at hpair
      have hrel : RecOrd (runTrace cap ops).2.1 victim k :=
        (List.pairwise_cons.mp hpair).1 k hkrest
      rcases hinv.times victim hvictim_mem with ⟨tv, htv, _⟩
      rcases hinv.times k hk with ⟨tk, htk, _⟩
      exact ⟨tv, tk, htv, htk, hrel tv tk htv htk⟩
  · intro k fp emb hk hlt
    have hkg : containsKey ((c.get k).2).entries k = true := by
      by_cases hck : containsKey c.entries k = true
      · have : (c.get k).2 = { c with
            access_order := (c.access_order.filter (fun u => ¬ u = k)) ++ [k],
            entries := bumpCount c.entries k } := by
          simp [EmbeddingCache.get, hck]
        rw [this]
        show containsKey (bumpCount c.entries k) k = true
        rw [containsKey_eq, map_fst_bumpCount, ← containsKey_eq]
        exact hck
      · rw [hk] at hck
        cases hck rfl
    by_cases hfp : containsKey ((c.get k).2).entries fp = true
    · have : ((c.get k).2.put fp emb).entries
          = setEmbedding ((c.get k).2).entries fp emb := by
        simp [EmbeddingCache.put, hfp]
      rw [this, containsKey_eq, map_fst_setEmbedding, ← containsKey_eq]
      exact hkg
    · have hcap2 : ((c.get k).2).capacity = c.capacity := by
        by_cases hck : containsKey c.entries k = true <;>
          simp [EmbeddingCache.get, hck]
      have hlt2 : ((c.get k).2).entries.length < ((c.get k).2).capacity := by
        rw [hcap2, hcapeq]
        exact hlt
      have hloop := evictLoop_noop ((c.get k).2).capacity
        ((c.get k).2).access_order ((c.get k).2).entries hlt2
      have : ((c.get k).2.put fp emb).entries
          = ((c.get k).2).entries ++ [(fp, ⟨emb, 1⟩)] := by
        simp [EmbeddingCache.put, hfp, hloop]
      rw [this, containsKey_append_single]
      exact Or.inl hkg

/-- Witness for `cache_lru_invariant`: capacity 2, the sequence
put a, put b, get a, put c (seed scenario 6). -/
theorem cache_lru_invariant_witness :
    1 ≤ 2 ∧
    ((runOps 2 [.put (str "a") [1], .put (str "b") [2], .get (str "a"),
        .put (str "c") [3]]).size ≤ 2) :=
  ⟨by decide,
   (cache_lru_invariant 2 (by decide)
     [.put (str "a") [1], .put (str "b") [2], .get (str "a"),
      .put (str "c") [3]]).1⟩

end WasmDb
